import Mathlib

/-!
Verification of the badword pattern-minimization tool (`optimize.py`, with
`compile.py` as the loader).  The program takes a set of regex-like patterns,
classifies them as *simple* (anchored literal / wildcard shapes) or
*complicated* (containing one of `[ ] ( ) | ?`), and removes patterns whose
matched-string language is covered by another pattern, in three stages:

* `check_words_simple`: shape decomposition of simple patterns into
  Anywhere / Prefix / Suffix / Whole with substring containment rules;
* `check_words_simple_complicated`: a simple pattern is dropped when some
  complicated pattern `re.match`-es its synthetic test string;
* `check_words_complicated`: pairwise language-subset checks between
  complicated patterns (character-overlap filter, sample-string filter,
  then exact equivalence of `clean_pattern word | clean_pattern sub`
  against `clean_pattern sub`, performed by the greenery library).

Strings are modelled as `List Char`.  Python's `re.match` / greenery are
modelled by a small regex dialect: an AST `Reg`, an inductive matching
relation `RMatch` (the language semantics), and an executable Brzozowski
derivative matcher proved equivalent to `RMatch`.  The Kleene star occurs in
the dialect only as `.*`, so the AST has an `anyStar` constructor and no
general star.  A recursive-descent parser maps the pattern strings of the
dialect to the AST; a pattern outside the parsed dialect is modelled as
matching nothing (the Python code would instead raise on an invalid regex,
which only matters for inputs outside the dialect).

The process-pool of `check_words_complicated` distributes per-word checks
whose results are combined as a set union, with every worker comparing
against the same frozen complicated set, so it is modelled as the set of
words for which the helper finds a cover.  Python set iteration order is
unspecified, hence sets are modelled as `Finset` and the helper's
first-match result as an existential.
-/

namespace Badword

/-- Strings are lists of characters (Python `str`). -/
abbrev Str := List Char

/-- Shorthand turning a Lean string literal into the `Str` model. -/
def lit (s : String) : Str := s.toList

/-- Python `str.removeprefix`: drop `pre` once from the front when present. -/
def removePre (pre w : Str) : Str :=
  if pre.isPrefixOf w then w.drop pre.length else w

/-- Python `str.removesuffix`: drop `suf` once from the back when present. -/
def removeSuf (suf w : Str) : Str :=
  if suf.isSuffixOf w then w.take (w.length - suf.length) else w

/-- Fuel-driven worker of `replaceAll` (structural recursion on the fuel,
so the kernel can evaluate it; fuel = input length always suffices). -/
def replaceAllF (pat rep : Str) : Nat → Str → Str
  | _, [] => []
  | 0, s => s
  | fuel + 1, c :: s =>
    if pat ≠ [] ∧ pat.isPrefixOf (c :: s) then
      rep ++ replaceAllF pat rep fuel ((c :: s).drop pat.length)
    else
      c :: replaceAllF pat rep fuel s

/-- Python `str.replace pat rep`: replace every non-overlapping occurrence of
`pat`, scanning left to right, with the replacement not rescanned. -/
def replaceAll (pat rep s : Str) : Str := replaceAllF pat rep s.length s

/-- The regex dialect used by the pattern set: literals, the any-character
`.`, the wildcard `.*` (the only use of the star), alternation, sequencing
and the empty word; `fail` is the empty language (used by derivatives). -/
inductive Reg where
  | fail : Reg
  | eps : Reg
  | lit (c : Char) : Reg
  | dot : Reg
  | anyStar : Reg
  | alt (r1 r2 : Reg) : Reg
  | seq (r1 r2 : Reg) : Reg
  deriving DecidableEq, Repr

/-- The language semantics of the dialect: `RMatch r s` holds when the whole
string `s` is matched by `r`. -/
inductive RMatch : Reg → Str → Prop where
  | eps : RMatch Reg.eps []
  | lit (c : Char) : RMatch (Reg.lit c) [c]
  | dot (c : Char) : RMatch Reg.dot [c]
  | anyStar (s : Str) : RMatch Reg.anyStar s
  | altL {r1 r2 : Reg} {s : Str} : RMatch r1 s → RMatch (Reg.alt r1 r2) s
  | altR {r1 r2 : Reg} {s : Str} : RMatch r2 s → RMatch (Reg.alt r1 r2) s
  | seq {r1 r2 : Reg} {s1 s2 : Str} :
      RMatch r1 s1 → RMatch r2 s2 → RMatch (Reg.seq r1 r2) (s1 ++ s2)

@[simp] theorem rmatch_fail_iff {s : Str} : RMatch Reg.fail s ↔ False := by
  constructor
  · intro h; cases h
  · intro h; exact h.elim

@[simp] theorem rmatch_eps_iff {s : Str} : RMatch Reg.eps s ↔ s = [] := by
  constructor
  · intro h; cases h; rfl
  · rintro rfl; exact RMatch.eps

@[simp] theorem rmatch_lit_iff {c : Char} {s : Str} :
    RMatch (Reg.lit c) s ↔ s = [c] := by
  constructor
  · intro h; cases h; rfl
  · rintro rfl; exact RMatch.lit c

@[simp] theorem rmatch_dot_iff {s : Str} : RMatch Reg.dot s ↔ ∃ c, s = [c] := by
  constructor
  · intro h; cases h with | dot c => exact ⟨c, rfl⟩
  · rintro ⟨c, rfl⟩; exact RMatch.dot c

@[simp] theorem rmatch_anyStar_iff {s : Str} : RMatch Reg.anyStar s ↔ True :=
  ⟨fun _ => trivial, fun _ => RMatch.anyStar s⟩

@[simp] theorem rmatch_alt_iff {r1 r2 : Reg} {s : Str} :
    RMatch (Reg.alt r1 r2) s ↔ RMatch r1 s ∨ RMatch r2 s := by
  constructor
  · intro h
    cases h with
    | altL h1 => exact Or.inl h1
    | altR h2 => exact Or.inr h2
  · rintro (h1 | h2)
    · exact RMatch.altL h1
    · exact RMatch.altR h2

@[simp] theorem rmatch_seq_iff {r1 r2 : Reg} {s : Str} :
    RMatch (Reg.seq r1 r2) s ↔
      ∃ s1 s2, s = s1 ++ s2 ∧ RMatch r1 s1 ∧ RMatch r2 s2 := by
  constructor
  · intro h
    cases h with
    | seq h1 h2 => exact ⟨_, _, rfl, h1, h2⟩
  · rintro ⟨s1, s2, rfl, h1, h2⟩
    exact RMatch.seq h1 h2

/-- Whether `r` matches the empty string (used by the derivative matcher). -/
def nullable : Reg → Bool
  | Reg.fail => false
  | Reg.eps => true
  | Reg.lit _ => false
  | Reg.dot => false
  | Reg.anyStar => true
  | Reg.alt r1 r2 => nullable r1 || nullable r2
  | Reg.seq r1 r2 => nullable r1 && nullable r2

/-- Brzozowski derivative of `r` with respect to the character `a`. -/
def deriv : Reg → Char → Reg
  | Reg.fail, _ => Reg.fail
  | Reg.eps, _ => Reg.fail
  | Reg.lit c, a => if a = c then Reg.eps else Reg.fail
  | Reg.dot, _ => Reg.eps
  | Reg.anyStar, _ => Reg.anyStar
  | Reg.alt r1 r2, a => Reg.alt (deriv r1 a) (deriv r2 a)
  | Reg.seq r1 r2, a =>
    if nullable r1 then Reg.alt (Reg.seq (deriv r1 a) r2) (deriv r2 a)
    else Reg.seq (deriv r1 a) r2

/-- Executable whole-string matcher (models a full `re.fullmatch` and the
matching semantics of a greenery pattern). -/
def matchesB (r : Reg) : Str → Bool
  | [] => nullable r
  | c :: s => matchesB (deriv r c) s

/-- Executable matcher deciding whether some prefix of the string matches
(the anchoring behavior of Python `re.match` without a trailing `$`). -/
def prefMatchB (r : Reg) : Str → Bool
  | [] => nullable r
  | c :: s => nullable r || prefMatchB (deriv r c) s

theorem nullable_iff {r : Reg} : nullable r = true ↔ RMatch r [] := by
  induction r with
  | fail => simp [nullable]
  | eps => simp [nullable]
  | lit c => simp [nullable]
  | dot => simp [nullable]
  | anyStar => simp [nullable]
  | alt r1 r2 ih1 ih2 => simp [nullable, ih1, ih2]
  | seq r1 r2 ih1 ih2 =>
    simp only [nullable, Bool.and_eq_true, ih1, ih2, rmatch_seq_iff]
    constructor
    · rintro ⟨h1, h2⟩; exact ⟨[], [], rfl, h1, h2⟩
    · rintro ⟨s1, s2, hs, h1, h2⟩
      rcases List.append_eq_nil.mp hs.symm with ⟨rfl, rfl⟩
      exact ⟨h1, h2⟩

theorem deriv_iff {r : Reg} {a : Char} {s : Str} :
    RMatch (deriv r a) s ↔ RMatch r (a :: s) := by
  induction r generalizing s with
  | fail => simp [deriv]
  | eps => simp [deriv]
  | lit c =>
    by_cases h : a = c
    · subst h; simp [deriv]
    · simp only [deriv, if_neg h, rmatch_fail_iff, false_iff, rmatch_lit_iff]
      intro hc; exact h (by injection hc)
  | dot => simp [deriv]
  | anyStar => simp [deriv]
  | alt r1 r2 ih1 ih2 => simp [deriv, ih1, ih2]
  | seq r1 r2 ih1 ih2 =>
    by_cases hn : nullable r1 = true
    · simp only [deriv, hn, if_pos, rmatch_alt_iff, rmatch_seq_iff]
      constructor
      · rintro (⟨s1, s2, rfl, h1, h2⟩ | h2)
        · exact ⟨a :: s1, s2, rfl, ih1.mp h1, h2⟩
        · exact ⟨[], a :: s, rfl, nullable_iff.mp hn, ih2.mp h2⟩
      · rintro ⟨s1, s2, hs, h1, h2⟩
        cases s1 with
        | nil =>
          right
          simp only [List.nil_append] at hs
          subst hs
          exact ih2.mpr h2
        | cons b s1 =>
          left
          rw [List.cons_append] at hs
          injection hs with hb hs
          subst hb
          exact ⟨s1, s2, hs, ih1.mpr h1, h2⟩
    · simp only [deriv, hn, if_neg, Bool.false_eq_true, not_false_eq_true,
        rmatch_seq_iff]
      constructor
      · rintro ⟨s1, s2, rfl, h1, h2⟩
        exact ⟨a :: s1, s2, rfl, ih1.mp h1, h2⟩
      · rintro ⟨s1, s2, hs, h1, h2⟩
        cases s1 with
        | nil =>
          exact absurd (nullable_iff.mpr (by simpa using h1)) hn
        | cons b s1 =>
          rw [List.cons_append] at hs
          injection hs with hb hs
          subst hb
          exact ⟨s1, s2, hs, ih1.mpr h1, h2⟩

theorem matchesB_iff {r : Reg} {s : Str} : matchesB r s = true ↔ RMatch r s := by
  induction s generalizing r with
  | nil => simpa [matchesB] using nullable_iff
  | cons c s ih => simpa [matchesB] using (ih.trans deriv_iff)

theorem prefMatchB_iff {r : Reg} {s : Str} :
    prefMatchB r s = true ↔ ∃ s1 s2, s = s1 ++ s2 ∧ RMatch r s1 := by
  induction s generalizing r with
  | nil =>
    simp only [prefMatchB, nullable_iff]
    constructor
    · intro h; exact ⟨[], [], rfl, h⟩
    · rintro ⟨s1, s2, hs, h1⟩
      rcases List.append_eq_nil.mp hs.symm with ⟨rfl, rfl⟩
      exact h1
  | cons c s ih =>
    simp only [prefMatchB, Bool.or_eq_true, nullable_iff, ih]
    constructor
    · rintro (h | ⟨s1, s2, rfl, h1⟩)
      · exact ⟨[], c :: s, rfl, h⟩
      · exact ⟨c :: s1, s2, rfl, deriv_iff.mp h1⟩
    · rintro ⟨s1, s2, hs, h1⟩
      cases s1 with
      | nil =>
        left
        simpa using h1
      | cons b s1 =>
        right
        rw [List.cons_append] at hs
        injection hs with hb hs
        subst hb
        exact ⟨s1, s2, hs, deriv_iff.mpr h1⟩

/-- Characters that cannot stand bare in the parsed dialect (they are
operators or anchors; a literal occurrence must be escaped). -/
def specialRaw : Str := ['(', ')', '[', ']', '|', '?', '*', '^', '$', '\\']

/-- Characters of a character class, read up to the closing `]`.  Escapes
`\c` denote the character `c`; nesting, negation and ranges are outside the
modelled dialect.  Returns the characters and the rest of the input. -/
def classChars : Str → Option (List Char × Str)
  | [] => none
  | ']' :: rest => some ([], rest)
  | '\\' :: c :: rest => (classChars rest).map (fun p => (c :: p.1, p.2))
  | c :: rest =>
    if c = '[' ∨ c = '\\' ∨ c = '^' then none
    else (classChars rest).map (fun p => (c :: p.1, p.2))

/-- Alternation of the literal characters of a class (`[abc]` means
`a|b|c`). -/
def classReg : List Char → Reg
  | [] => Reg.fail
  | [c] => Reg.lit c
  | c :: cs => Reg.alt (Reg.lit c) (classReg cs)

mutual

/-- Parser, alternation level: a sequence, optionally `| alternation`.  All
parser levels take fuel bounding the recursion depth and return the parsed
regex with the unconsumed input. -/
def pAlt : Nat → Str → Option (Reg × Str)
  | 0, _ => none
  | fuel + 1, s => do
    let (r1, s1) ← pSeq fuel s
    match s1 with
    | '|' :: rest => do
      let (r2, s2) ← pAlt fuel rest
      pure (Reg.alt r1 r2, s2)
    | _ => pure (r1, s1)

/-- Parser, sequence level: concatenation of postfixed atoms, ending at
`|`, `)` or the end of input. -/
def pSeq : Nat → Str → Option (Reg × Str)
  | 0, _ => none
  | fuel + 1, s =>
    match s with
    | [] => pure (Reg.eps, [])
    | ')' :: _ => pure (Reg.eps, s)
    | '|' :: _ => pure (Reg.eps, s)
    | _ => do
      let (r1, s1) ← pPost fuel s
      let (r2, s2) ← pSeq fuel s1
      pure (Reg.seq r1 r2, s2)

/-- Parser, postfix level: an atom with an optional `?` (the star is handled
inside the atom, as it exists in the dialect only as `.*`). -/
def pPost : Nat → Str → Option (Reg × Str)
  | 0, _ => none
  | fuel + 1, s => do
    let (r, s1) ← pAtom fuel s
    match s1 with
    | '?' :: rest => pure (Reg.alt r Reg.eps, rest)
    | _ => pure (r, s1)

/-- Parser, atom level: group, class, escape, `.*`, `.` or a literal. -/
def pAtom : Nat → Str → Option (Reg × Str)
  | 0, _ => none
  | fuel + 1, s =>
    match s with
    | [] => none
    | '(' :: rest => do
      let (r, s1) ← pAlt fuel rest
      match s1 with
      | ')' :: s2 => pure (r, s2)
      | _ => none
    | '[' :: rest => do
      let (cs, s1) ← classChars rest
      if cs = [] then none else pure (classReg cs, s1)
    | '\\' :: c :: rest => pure (Reg.lit c, rest)
    | '.' :: '*' :: rest => pure (Reg.anyStar, rest)
    | '.' :: rest => pure (Reg.dot, rest)
    | c :: rest => if c ∈ specialRaw then none else pure (Reg.lit c, rest)

end

/-- Parse a whole anchor-free pattern in the dialect (the format greenery
receives); `none` when the pattern falls outside the modelled dialect. -/
def parseG (p : Str) : Option Reg :=
  match pAlt (2 * p.length + 4) p with
  | some (r, []) => some r
  | _ => none

/-- Parse a raw pattern as Python `re.match` reads it: an optional leading
`^` (redundant under `re.match`), a body in the dialect, and an optional
trailing unescaped `$`; returns the body's regex and whether the match is
anchored at the end. -/
def parseRe (p : Str) : Option (Reg × Bool) :=
  let p1 := removePre ['^'] p
  if p1.getLast? = some '$' ∧ ¬ p1.dropLast.getLast? = some '\\' then
    (parseG p1.dropLast).map (fun r => (r, true))
  else
    (parseG p1).map (fun r => (r, false))

/-- Executable model of the truthiness of Python `re.match(p, t)`: with a
trailing `$` the whole of `t` must match, otherwise a prefix of `t`
suffices.  A pattern outside the modelled dialect matches nothing (Python
would raise instead; the dialect's patterns all parse). -/
def reMatchB (p t : Str) : Bool :=
  match parseRe p with
  | none => false
  | some (r, endAnchored) => if endAnchored then matchesB r t else prefMatchB r t

/-- Propositional counterpart of `reMatchB`, in terms of the language
semantics `RMatch`. -/
def reMatchP (p t : Str) : Prop :=
  match parseRe p with
  | none => False
  | some (r, endAnchored) =>
    if endAnchored then RMatch r t else ∃ t1 t2, t = t1 ++ t2 ∧ RMatch r t1

theorem reMatchB_iff {p t : Str} : reMatchB p t = true ↔ reMatchP p t := by
  unfold reMatchB reMatchP
  cases hp : parseRe p with
  | none => simp
  | some rb =>
    obtain ⟨r, ea⟩ := rb
    by_cases he : ea = true
    · subst he; simpa using matchesB_iff
    · simp only [Bool.not_eq_true] at he
      subst he
      simpa using prefMatchB_iff

/-- The set of strings on which `re.match(p, ·)` is truthy: the matched
language of the pattern `p` under Python matching semantics. -/
def patternLang (p : Str) : Set Str := {t | reMatchP p t}

/-- The language of an anchor-free pattern as greenery sees it (whole-string
matching). -/
def langFull (p : Str) : Set Str :=
  match parseG p with
  | none => ∅
  | some r => {s | RMatch r s}

instance exceptDecEq {ε α : Type} [DecidableEq ε] [DecidableEq α] :
    DecidableEq (Except ε α) := fun a b =>
  match a, b with
  | Except.error x, Except.error y =>
    if h : x = y then Decidable.isTrue (by rw [h])
    else Decidable.isFalse (fun hh => h (by injection hh))
  | Except.error _, Except.ok _ => Decidable.isFalse (fun hh => by injection hh)
  | Except.ok _, Except.error _ => Decidable.isFalse (fun hh => by injection hh)
  | Except.ok x, Except.ok y =>
    if h : x = y then Decidable.isTrue (by rw [h])
    else Decidable.isFalse (fun hh => h (by injection hh))

/-- The private-use sentinel character U+F000 that replaces `.*` in simple
test strings. -/
def sentinel : Char := Char.ofNat 0xF000

/-- Embeds `make_test_string_simple` (optimize.py lines 18-23): strip a
leading `^` and a trailing `$`, unescape `\.` and `\$`, then replace every
`.*` with the sentinel. -/
def make_test_string_simple (p : Str) : Str :=
  replaceAll ['.', '*'] [sentinel]
    (replaceAll ['\\', '$'] ['$']
      (replaceAll ['\\', '.'] ['.']
        (removeSuf ['$'] (removePre ['^'] p))))

/-- Embeds `clean_pattern` (optimize.py lines 31-34): strip a leading `^`
and a trailing `$`, and unescape `\^` and `\$` for greenery. -/
def clean_pattern (p : Str) : Str :=
  replaceAll ['\\', '$'] ['$']
    (replaceAll ['\\', '^'] ['^']
      (removeSuf ['$'] (removePre ['^'] p)))

/-- The `.*`-elision `pattern.replace('.*', '')` applied before generating
test strings for a complicated pattern (optimize.py line 28). -/
def elide_wildcards (p : Str) : Str := replaceAll ['.', '*'] [] p

/-- The four shapes of a simple pattern. -/
inductive ShapeKind where
  | anywhereK : ShapeKind
  | prefixK : ShapeKind
  | suffixK : ShapeKind
  | wholeK : ShapeKind
  deriving DecidableEq, Repr

/-- The shape decomposition of `check_words_simple` (optimize.py lines
79-95): the branch structure of the `if`/`elif` chains, with the slice
bounds of each branch; `none` models the raised `ValueError`. -/
def shape_of (w : Str) : Option (ShapeKind × Str) :=
  if (['.', '*']).isSuffixOf w then
    if (['.', '*']).isPrefixOf w then
      some (ShapeKind.anywhereK, ((w.drop 2).dropLast).dropLast)
    else if (['^']).isPrefixOf w then
      some (ShapeKind.prefixK, ((w.drop 1).dropLast).dropLast)
    else none
  else if (['$']).isSuffixOf w then
    if (['.', '*']).isPrefixOf w then
      some (ShapeKind.suffixK, (w.drop 2).dropLast)
    else if (['^']).isPrefixOf w then
      some (ShapeKind.wholeK, (w.drop 1).dropLast)
    else none
  else none

/-- The core bucket of one shape: the cores of the patterns of `S` that
decompose to the kind `k` (the sets `anywhere`, `prefix`, `suffix`, `whole`
of `check_words_simple`). -/
def bucket (k : ShapeKind) (S : Finset Str) : Finset Str :=
  (S.filter (fun w => (shape_of w).map Prod.fst = some k)).image
    (fun w => ((shape_of w).map Prod.snd).getD [])

/-- Rebuilds the pattern the code adds to `redundant` from a shape and a
core (`'.*' + word + '.*'` and its three siblings). -/
def rebuild (k : ShapeKind) (c : Str) : Str :=
  match k with
  | ShapeKind.anywhereK => ['.', '*'] ++ c ++ ['.', '*']
  | ShapeKind.prefixK => '^' :: (c ++ ['.', '*'])
  | ShapeKind.suffixK => ['.', '*'] ++ c ++ ['$']
  | ShapeKind.wholeK => '^' :: (c ++ ['$'])

/-- The `redundant` set built by the four loops of `check_words_simple`
(optimize.py lines 97-126): containment rules per shape, rebuilding the
flagged pattern from its core.  The `elif` chains add the same rebuilt
pattern whichever branch fires, so each loop is one filter over a
disjunction. -/
def cws_redundant (S : Finset Str) : Finset Str :=
  ((bucket ShapeKind.anywhereK S).filter (fun w =>
      ∃ v ∈ bucket ShapeKind.anywhereK S, v.length < w.length ∧
        v <:+: w)).image (rebuild ShapeKind.anywhereK) ∪
  ((bucket ShapeKind.prefixK S).filter (fun w =>
      (∃ v ∈ bucket ShapeKind.anywhereK S, v.length ≤ w.length ∧ v <:+: w) ∨
      (∃ v ∈ bucket ShapeKind.prefixK S, v.length < w.length ∧ v <+: w))).image
        (rebuild ShapeKind.prefixK) ∪
  ((bucket ShapeKind.suffixK S).filter (fun w =>
      (∃ v ∈ bucket ShapeKind.anywhereK S, v.length ≤ w.length ∧ v <:+: w) ∨
      (∃ v ∈ bucket ShapeKind.suffixK S, v.length < w.length ∧ v <:+ w))).image
        (rebuild ShapeKind.suffixK) ∪
  ((bucket ShapeKind.wholeK S).filter (fun w =>
      (∃ v ∈ bucket ShapeKind.anywhereK S, v.length ≤ w.length ∧ v <:+: w) ∨
      (∃ v ∈ bucket ShapeKind.prefixK S, v.length ≤ w.length ∧ v <+: w) ∨
      (∃ v ∈ bucket ShapeKind.suffixK S, v.length ≤ w.length ∧ v <:+ w))).image
        (rebuild ShapeKind.wholeK)

/-- Embeds `check_words_simple` (optimize.py lines 70-126): decompose every
simple pattern into a shape (an undecomposable pattern raises, modelled as
`Except.error`), then collect the patterns flagged redundant by the
substring / prefix / suffix containment rules of the four loops. -/
def check_words_simple (S : Finset Str) : Except Unit (Finset Str) :=
  if ∃ w ∈ S, shape_of w = none then Except.error ()
  else Except.ok (cws_redundant S)

/-- Embeds `check_words_simple_complicated` (optimize.py lines 128-136): a
simple pattern is redundant when some complicated pattern `re.match`-es its
synthetic test string. -/
def check_words_simple_complicated (S C : Finset Str) : Finset Str :=
  S.filter (fun w => ∃ c ∈ C, reMatchB c (make_test_string_simple w) = true)

/-- The ten metacharacters removed from the character overlap
(`'^$[]()|?.*'`, optimize.py line 52). -/
def meta_chars : Str := ['^', '$', '[', ']', '(', ')', '|', '?', '.', '*']

/-- Embeds `set(word).intersection(sub).difference('^$[]()|?.*')`: the
literal characters shared by the two pattern strings. -/
def char_overlap (word sub : Str) : Finset Char :=
  (word.toFinset ∩ sub.toFinset) \ meta_chars.toFinset

/-- The language from which the sample strings of a complicated pattern are
drawn: the greenery language of the pattern with `.*` elided and the anchors
cleaned (optimize.py lines 25-29). -/
def sample_lang (word : Str) : Set Str :=
  langFull (clean_pattern (elide_wildcards word))

/-- Characterizes `make_test_strings_complicated(word)` (optimize.py lines
25-29): up to 2 distinct strings of `sample_lang word`, and fewer than 2
only when the language has no further strings.  The enumeration order of
greenery's `strings()` is not pinned down, so the test-string tuple is
related to the word rather than computed. -/
def test_strings_ok (word : Str) (ts : List Str) : Prop :=
  ts.Nodup ∧ ts.length ≤ 2 ∧ (∀ t ∈ ts, t ∈ sample_lang word) ∧
    (ts.length < 2 → ∀ t ∈ sample_lang word, t ∈ ts)

/-- The exact filter of `check_words_complicated_helper` (optimize.py line
58): greenery equivalence of `clean_pattern(word)|clean_pattern(sub)` and
`clean_pattern(sub)`, i.e. equality of the two languages.  Note the check
runs on `clean_pattern` of the raw patterns: the `.*` wildcards are NOT
elided here (elision happens only in `make_test_strings_complicated`). -/
def equiv_filter (word sub : Str) : Prop :=
  langFull (clean_pattern word ++ '|' :: clean_pattern sub) =
    langFull (clean_pattern sub)

/-- The claimed variant of the exact filter in which both patterns have
their `.*` wildcards elided first, stated for comparison with
`equiv_filter`.  Modelled from the spec: the spec asserts the equivalence
check treats `.*` as elided, the same elision as the sample strings. -/
def equiv_filter_elided (word sub : Str) : Prop :=
  langFull (clean_pattern (elide_wildcards word) ++
      '|' :: clean_pattern (elide_wildcards sub)) =
    langFull (clean_pattern (elide_wildcards sub))

/-- Embeds `check_words_complicated_helper` (optimize.py lines 36-60): the
word has a cover in `other` when some `sub ≠ word` passes the
character-overlap filter, matches all test strings of `word`, and passes
the exact equivalence filter.  Python set iteration order only affects
which cover is returned, not whether one is found, so the result is an
existential over `other` and over the admissible test-string tuples. -/
def check_words_complicated_helper_finds (word : Str) (other : Finset Str) : Prop :=
  ∃ ts, test_strings_ok word ts ∧
    ∃ sub ∈ other, sub ≠ word ∧ char_overlap word sub ≠ ∅ ∧
      (∀ t ∈ ts, reMatchP sub t) ∧ equiv_filter word sub

/-- Embeds `check_words_complicated` (optimize.py lines 138-164): every word
of the complicated set is checked by a pool worker against the same frozen
complicated set, and the redundant set is the union of the per-word
results, so it is the set of words for which the helper finds a cover. -/
def check_words_complicated (C : Finset Str) : Set Str :=
  {w | w ∈ C ∧ check_words_complicated_helper_finds w C}

/-- The characters whose presence makes a pattern complicated
(`'[]()|?'`, optimize.py line 172). -/
def complicated_chars : Str := ['[', ']', '(', ')', '|', '?']

/-- The complicated subset of a pattern set. -/
def complicated_of (words : Finset Str) : Finset Str :=
  words.filter (fun w => ∃ c ∈ complicated_chars, c ∈ w)

/-- Embeds the reduction pipeline of `main` (optimize.py lines 166-190):
partition into simple and complicated, run `check_words_simple` on the
simple set, and when the complicated set is nonempty also
`check_words_simple_complicated` and `check_words_complicated`,
subtracting each stage's redundant set.  `Except.error` models the
`ValueError` aborting the run; the output models the surviving set that
`main` writes out (sorted, so a set faithfully represents it). -/
def run_main (words : Finset Str) : Except Unit (Set Str) :=
  match check_words_simple (words \ complicated_of words) with
  | Except.error e => Except.error e
  | Except.ok red1 =>
    if complicated_of words = ∅ then Except.ok ↑(words \ red1)
    else
      Except.ok
        (↑((words \ red1) \
            check_words_simple_complicated ((words \ red1) \ complicated_of words)
              (complicated_of words)) \
          check_words_complicated (complicated_of words))

/-- A provenance record of `compile.py` (`Entry`): a language tag and a
version number. -/
abbrev Entry := Str × Int

/-- The loader's result (`load_words`): a mapping from pattern string to its
provenance records, modelled as an association list. -/
abbrev WordMap := List (Str × List Entry)

/-- The key set of a loaded word map: the patterns themselves. -/
def word_keys (m : WordMap) : Finset Str := (m.map Prod.fst).toFinset

/-- The whole of `main` after loading: the reduction runs on the key set of
the loaded map; the provenance values are not consumed (as in the source,
where `main` only iterates over the dict's keys). -/
def load_and_reduce (m : WordMap) : Except Unit (Set Str) :=
  run_main (word_keys m)

theorem check_words_simple_error_iff {S : Finset Str} :
    check_words_simple S = Except.error () ↔ ∃ w ∈ S, shape_of w = none := by
  unfold check_words_simple
  by_cases h : ∃ w ∈ S, shape_of w = none
  · simp [h]
  · simp [h]

theorem check_words_simple_ok {S R : Finset Str}
    (h : check_words_simple S = Except.ok R) : ¬ ∃ w ∈ S, shape_of w = none := by
  intro hex
  rw [check_words_simple, if_pos hex] at h
  exact absurd h (by simp)

/-- CLAIM C9.  Provenance-blindness: the minimized output depends only on
the key set of the loaded word map; two maps with the same patterns and
arbitrarily different provenance records reduce identically. -/
theorem provenance_blind (m1 m2 : WordMap) (h : word_keys m1 = word_keys m2) :
    load_and_reduce m1 = load_and_reduce m2 := by
  unfold load_and_reduce
  rw [h]

/-- Witness for C9 at two concrete maps whose provenance records differ. -/
theorem provenance_blind_witness :
    load_and_reduce [(lit ("^ab$"), [(lit ("jja"), 1)])] =
      load_and_reduce [(lit ("^ab$"), [(lit ("een"), 5), (lit ("kko"), 12)])] :=
  provenance_blind _ _ (by decide)

/-- CLAIM C10.  The cross engine removes a simple pattern exactly when some
complicated pattern `re.match`-es its synthetic test string; the test
string strips the anchors, unescapes `\.` and `\$`, and replaces `.*` by
U+F000; and `re.match` needs only a prefix of the test string to match
(shown by `(a)`, which removes `^ab$` although it does not match the whole
test string `ab`). -/
theorem cross_engine_match_iff :
    (∀ (S C : Finset Str) (w : Str),
      w ∈ check_words_simple_complicated S C ↔
        w ∈ S ∧ ∃ c ∈ C, reMatchB c (make_test_string_simple w) = true) ∧
    (∀ p t : Str, reMatchB p t = true ↔ reMatchP p t) ∧
    (∀ w : Str, make_test_string_simple w =
      replaceAll ['.', '*'] [sentinel]
        (replaceAll ['\\', '$'] ['$']
          (replaceAll ['\\', '.'] ['.']
            (removeSuf ['$'] (removePre ['^'] w))))) ∧
    make_test_string_simple (lit ("^a\\..*$")) = ['a', '.', sentinel] ∧
    lit ("^ab$") ∈ check_words_simple_complicated {lit ("^ab$")} {lit ("(a)")} ∧
    reMatchP (lit ("(a)")) (lit ("ab")) ∧
    ¬ RMatch ((parseG (lit ("(a)"))).getD Reg.fail) (lit ("ab")) := by
  refine ⟨?_, ?_, ?_, ?_, ?_, ?_, ?_⟩
  · intro S C w
    simp [check_words_simple_complicated]
  · intro p t
    exact reMatchB_iff
  · intro w
    rfl
  · decide
  · decide
  · rw [← reMatchB_iff]
    decide
  · rw [← matchesB_iff]
    decide

theorem dollar_excludes_dotstar {w : Str} (h : ['$'] <:+ w) :
    ¬ (['.', '*'] <:+ w) := by
  obtain ⟨t, rfl⟩ := h
  rintro ⟨u, hu⟩
  have h1 : (t ++ ['$']).getLast? = some '$' := by
    simp [List.getLast?_append]
  have h2 : (u ++ ['.', '*']).getLast? = some '*' := by
    have he : u ++ ['.', '*'] = (u ++ ['.']) ++ ['*'] := by simp
    rw [he]
    simp [List.getLast?_append]
  rw [hu, h1] at h2
  exact absurd (by injection h2) (by decide)

theorem caret_excludes_dotstar {w : Str} (h : ['^'] <+: w) :
    ¬ (['.', '*'] <+: w) := by
  obtain ⟨t, rfl⟩ := h
  rintro ⟨u, hu⟩
  have h2 := congrArg List.head? hu
  simp only [List.cons_append, List.head?_cons, List.singleton_append] at h2
  exact absurd (by injection h2) (by decide)

theorem shape_of_isSome_iff {w : Str} : (shape_of w).isSome = true ↔
    ((['.', '*'] <:+ w ∨ ['$'] <:+ w) ∧ (['.', '*'] <+: w ∨ ['^'] <+: w)) := by
  unfold shape_of
  by_cases h1 : (['.', '*']).isSuffixOf w <;>
    by_cases h2 : (['.', '*']).isPrefixOf w <;>
      by_cases h3 : (['^']).isPrefixOf w <;>
        by_cases h4 : (['$']).isSuffixOf w <;>
          simp_all [List.isSuffixOf_iff_suffix, List.isPrefixOf_iff_prefix]

theorem shape_of_anywhere {w : Str} (h1 : ['.', '*'] <:+ w)
    (h2 : ['.', '*'] <+: w) :
    shape_of w = some (ShapeKind.anywhereK, ((w.drop 2).dropLast).dropLast) := by
  unfold shape_of
  rw [if_pos (List.isSuffixOf_iff_suffix.mpr h1),
    if_pos (List.isPrefixOf_iff_prefix.mpr h2)]

theorem shape_of_prefixK {w : Str} (h1 : ['.', '*'] <:+ w)
    (h2 : ['^'] <+: w) :
    shape_of w = some (ShapeKind.prefixK, ((w.drop 1).dropLast).dropLast) := by
  unfold shape_of
  rw [if_pos (List.isSuffixOf_iff_suffix.mpr h1)]
  rw [if_neg (fun hb => caret_excludes_dotstar h2 (List.isPrefixOf_iff_prefix.mp hb)),
    if_pos (List.isPrefixOf_iff_prefix.mpr h2)]

theorem shape_of_suffixK {w : Str} (h1 : ['$'] <:+ w)
    (h2 : ['.', '*'] <+: w) :
    shape_of w = some (ShapeKind.suffixK, (w.drop 2).dropLast) := by
  unfold shape_of
  rw [if_neg (fun hb => dollar_excludes_dotstar h1 (List.isSuffixOf_iff_suffix.mp hb)),
    if_pos (List.isSuffixOf_iff_suffix.mpr h1),
    if_pos (List.isPrefixOf_iff_prefix.mpr h2)]

theorem shape_of_wholeK {w : Str} (h1 : ['$'] <:+ w)
    (h2 : ['^'] <+: w) :
    shape_of w = some (ShapeKind.wholeK, (w.drop 1).dropLast) := by
  unfold shape_of
  rw [if_neg (fun hb => dollar_excludes_dotstar h1 (List.isSuffixOf_iff_suffix.mp hb)),
    if_pos (List.isSuffixOf_iff_suffix.mpr h1)]
  rw [if_neg (fun hb => caret_excludes_dotstar h2 (List.isPrefixOf_iff_prefix.mp hb)),
    if_pos (List.isPrefixOf_iff_prefix.mpr h2)]

/-- CLAIM C7.  Shape decomposition: a pattern decomposes iff it ends with
`.*` or `$` and starts with `.*` or `^`; each of the four combinations
yields the stated shape with the stated strip counts; and
`check_words_simple` raises exactly when some input pattern does not
decompose. -/
theorem shape_decomposition_total :
    (∀ w : Str, (shape_of w).isSome = true ↔
      ((['.', '*'] <:+ w ∨ ['$'] <:+ w) ∧ (['.', '*'] <+: w ∨ ['^'] <+: w))) ∧
    (∀ w : Str, ['.', '*'] <:+ w → ['.', '*'] <+: w →
      shape_of w = some (ShapeKind.anywhereK, ((w.drop 2).dropLast).dropLast)) ∧
    (∀ w : Str, ['.', '*'] <:+ w → ['^'] <+: w →
      shape_of w = some (ShapeKind.prefixK, ((w.drop 1).dropLast).dropLast)) ∧
    (∀ w : Str, ['$'] <:+ w → ['.', '*'] <+: w →
      shape_of w = some (ShapeKind.suffixK, (w.drop 2).dropLast)) ∧
    (∀ w : Str, ['$'] <:+ w → ['^'] <+: w →
      shape_of w = some (ShapeKind.wholeK, (w.drop 1).dropLast)) ∧
    (∀ S : Finset Str,
      check_words_simple S = Except.error () ↔ ∃ w ∈ S, shape_of w = none) :=
  ⟨fun _ => shape_of_isSome_iff,
    fun _ h1 h2 => shape_of_anywhere h1 h2,
    fun _ h1 h2 => shape_of_prefixK h1 h2,
    fun _ h1 h2 => shape_of_suffixK h1 h2,
    fun _ h1 h2 => shape_of_wholeK h1 h2,
    fun _ => check_words_simple_error_iff⟩

theorem dropLast_append_one {c : Str} {a : Char} : (c ++ [a]).dropLast = c := by
  simp

theorem dropLast_append_two {c : Str} {a b : Char} :
    ((c ++ [a, b]).dropLast).dropLast = c := by
  have h1 : c ++ [a, b] = (c ++ [a]) ++ [b] := by simp
  rw [h1, dropLast_append_one, dropLast_append_one]

theorem mem_bucket_iff {k : ShapeKind} {S : Finset Str} {v : Str} :
    v ∈ bucket k S ↔ ∃ p ∈ S, shape_of p = some (k, v) := by
  unfold bucket
  simp only [Finset.mem_image, Finset.mem_filter]
  constructor
  · rintro ⟨p, ⟨hpS, hk⟩, hv⟩
    refine ⟨p, hpS, ?_⟩
    cases hsp : shape_of p with
    | none => rw [hsp] at hk; exact absurd hk (by simp)
    | some kc =>
      obtain ⟨k2, c⟩ := kc
      rw [hsp] at hk hv
      simp only [Option.map_some', Option.some.injEq] at hk
      simp only [Option.map_some', Option.getD_some] at hv
      rw [hk, hv]
  · rintro ⟨p, hpS, hsp⟩
    exact ⟨p, ⟨hpS, by rw [hsp]; rfl⟩, by rw [hsp]; rfl⟩

theorem shape_of_rebuild (k : ShapeKind) (c : Str) :
    shape_of (rebuild k c) = some (k, c) := by
  cases k with
  | anywhereK =>
    have h := shape_of_anywhere (w := rebuild ShapeKind.anywhereK c)
      (List.suffix_append _ _)
      (by
        show ['.', '*'] <+: (['.', '*'] ++ c) ++ ['.', '*']
        rw [List.append_assoc]
        exact List.prefix_append _ _)
    rw [h]
    have hd : (rebuild ShapeKind.anywhereK c).drop 2 = c ++ ['.', '*'] := by
      show ((['.', '*'] ++ c) ++ ['.', '*']).drop 2 = c ++ ['.', '*']
      rw [List.append_assoc]
      rfl
    rw [hd, dropLast_append_two]
  | prefixK =>
    have h := shape_of_prefixK (w := rebuild ShapeKind.prefixK c)
      (by
        show ['.', '*'] <:+ '^' :: (c ++ ['.', '*'])
        have he : '^' :: (c ++ ['.', '*']) = ('^' :: c) ++ ['.', '*'] := by simp
        rw [he]
        exact List.suffix_append _ _)
      (by
        show ['^'] <+: '^' :: (c ++ ['.', '*'])
        exact ⟨c ++ ['.', '*'], rfl⟩)
    rw [h]
    have hd : (rebuild ShapeKind.prefixK c).drop 1 = c ++ ['.', '*'] := rfl
    rw [hd, dropLast_append_two]
  | suffixK =>
    have h := shape_of_suffixK (w := rebuild ShapeKind.suffixK c)
      (List.suffix_append _ _)
      (by
        show ['.', '*'] <+: (['.', '*'] ++ c) ++ ['$']
        rw [List.append_assoc]
        exact List.prefix_append _ _)
    rw [h]
    have hd : (rebuild ShapeKind.suffixK c).drop 2 = c ++ ['$'] := by
      show ((['.', '*'] ++ c) ++ ['$']).drop 2 = c ++ ['$']
      rw [List.append_assoc]
      rfl
    rw [hd, dropLast_append_one]
  | wholeK =>
    have h := shape_of_wholeK (w := rebuild ShapeKind.wholeK c)
      (by
        show ['$'] <:+ '^' :: (c ++ ['$'])
        have he : '^' :: (c ++ ['$']) = ('^' :: c) ++ ['$'] := by simp
        rw [he]
        exact List.suffix_append _ _)
      ⟨c ++ ['$'], rfl⟩
    rw [h]
    have hd : (rebuild ShapeKind.wholeK c).drop 1 = c ++ ['$'] := rfl
    rw [hd, dropLast_append_one]

theorem rebuild_inj {k k2 : ShapeKind} {c c2 : Str}
    (h : rebuild k c = rebuild k2 c2) : k = k2 ∧ c = c2 := by
  have h1 := shape_of_rebuild k c
  rw [h, shape_of_rebuild] at h1
  have h2 : (k2, c2) = (k, c) := by injection h1
  have h3 := Prod.mk.injEq .. ▸ h2
  exact ⟨(Prod.mk.inj h2).1.symm, (Prod.mk.inj h2).2.symm⟩

/-- Reconstruction: a pattern rebuilds from its shape and core, except the
bare anywhere pattern `.*`, whose core is empty. -/
theorem rebuild_shape_of {p : Str} {k : ShapeKind} {c : Str}
    (h : shape_of p = some (k, c)) (hnc : k = ShapeKind.anywhereK → c ≠ []) :
    rebuild k c = p := by
  unfold shape_of at h
  by_cases h1 : (['.', '*']).isSuffixOf p
  · rw [if_pos h1] at h
    by_cases h2 : (['.', '*']).isPrefixOf p
    · rw [if_pos h2] at h
      have hp := List.isPrefixOf_iff_prefix.mp h2
      have hs := List.isSuffixOf_iff_suffix.mp h1
      obtain ⟨t, rfl⟩ := hp
      obtain ⟨u, hu⟩ := hs
      have hkc : (ShapeKind.anywhereK, ((((['.', '*'] : Str) ++ t).drop 2).dropLast).dropLast) = (k, c) := by
        injection h
      obtain ⟨hk, hc⟩ := Prod.mk.inj hkc
      subst hk
      have hdrop : ((['.', '*'] : Str) ++ t).drop 2 = t := rfl
      match u with
      | [] =>
        exfalso
        apply hnc rfl
        rw [← hc, hdrop]
        simp only [List.nil_append] at hu
        injection hu with _ h5
        injection h5 with _ h6
        have h7 : t = [] := by simpa using h6.symm
        rw [h7]
        rfl
      | [x] =>
        exfalso
        simp only [List.cons_append, List.singleton_append, List.nil_append] at hu
        injection hu with _ h5
        injection h5 with h6 _
        exact absurd h6 (by decide)
      | a :: b :: u2 =>
        have hu2 : a :: b :: (u2 ++ ['.', '*']) = '.' :: '*' :: t := by
          simpa using hu
        injection hu2 with _ hrest2
        injection hrest2 with _ ht
        rw [← hc, hdrop, ← ht, dropLast_append_two]
        simp [rebuild]
    · rw [if_neg h2] at h
      by_cases h3 : (['^']).isPrefixOf p
      · rw [if_pos h3] at h
        have hp := List.isPrefixOf_iff_prefix.mp h3
        have hs := List.isSuffixOf_iff_suffix.mp h1
        obtain ⟨t, rfl⟩ := hp
        obtain ⟨u, hu⟩ := hs
        have hkc : (ShapeKind.prefixK, ((((['^'] : Str) ++ t).drop 1).dropLast).dropLast) = (k, c) := by
          injection h
        obtain ⟨hk, hc⟩ := Prod.mk.inj hkc
        subst hk
        have hdrop : ((['^'] : Str) ++ t).drop 1 = t := rfl
        match u with
        | [] =>
          exfalso
          simp only [List.nil_append] at hu
          injection hu with h5 _
          exact absurd h5 (by decide)
        | a :: u2 =>
          have hu2 : a :: (u2 ++ ['.', '*']) = '^' :: t := by simpa using hu
          injection hu2 with _ ht
          rw [← hc, hdrop, ← ht, dropLast_append_two]
          simp [rebuild]
      · rw [if_neg h3] at h
        exact absurd h (by simp)
  · rw [if_neg h1] at h
    by_cases h4 : (['$']).isSuffixOf p
    · rw [if_pos h4] at h
      by_cases h2 : (['.', '*']).isPrefixOf p
      · rw [if_pos h2] at h
        have hp := List.isPrefixOf_iff_prefix.mp h2
        have hs := List.isSuffixOf_iff_suffix.mp h4
        obtain ⟨t, rfl⟩ := hp
        obtain ⟨u, hu⟩ := hs
        have hkc : (ShapeKind.suffixK, (((['.', '*'] : Str) ++ t).drop 2).dropLast) = (k, c) := by
          injection h
        obtain ⟨hk, hc⟩ := Prod.mk.inj hkc
        subst hk
        have hdrop : ((['.', '*'] : Str) ++ t).drop 2 = t := rfl
        match u with
        | [] =>
          exfalso
          simp only [List.nil_append] at hu
          injection hu with h5 _
          exact absurd h5 (by decide)
        | [x] =>
          exfalso
          simp only [List.cons_append, List.singleton_append, List.nil_append] at hu
          injection hu with _ h5
          injection h5 with h6 _
          exact absurd h6 (by decide)
        | a :: b :: u2 =>
          have hu2 : a :: b :: (u2 ++ ['$']) = '.' :: '*' :: t := by simpa using hu
          injection hu2 with _ hrest2
          injection hrest2 with _ ht
          rw [← hc, hdrop, ← ht, dropLast_append_one]
          simp [rebuild]
      · rw [if_neg h2] at h
        by_cases h3 : (['^']).isPrefixOf p
        · rw [if_pos h3] at h
          have hp := List.isPrefixOf_iff_prefix.mp h3
          have hs := List.isSuffixOf_iff_suffix.mp h4
          obtain ⟨t, rfl⟩ := hp
          obtain ⟨u, hu⟩ := hs
          have hkc : (ShapeKind.wholeK, (((['^'] : Str) ++ t).drop 1).dropLast) = (k, c) := by
            injection h
          obtain ⟨hk, hc⟩ := Prod.mk.inj hkc
          subst hk
          have hdrop : ((['^'] : Str) ++ t).drop 1 = t := rfl
          match u with
          | [] =>
            exfalso
            simp only [List.nil_append] at hu
            injection hu with h5 _
            exact absurd h5 (by decide)
          | a :: u2 =>
            have hu2 : a :: (u2 ++ ['$']) = '^' :: t := by simpa using hu
            injection hu2 with _ ht
            rw [← hc, hdrop, ← ht, dropLast_append_one]
            simp [rebuild]
        · rw [if_neg h3] at h
          exact absurd h (by simp)
    · rw [if_neg h4] at h
      exact absurd h (by simp)

/-- Witness for C7: the suffix-shape case instantiated at `.*abc$`, and a
malformed pattern aborting a concrete run. -/
theorem shape_decomposition_total_witness :
    shape_of (lit (".*abc$")) = some (ShapeKind.suffixK, lit ("abc")) ∧
    check_words_simple {lit ("oops")} = Except.error () := by
  constructor
  · exact shape_decomposition_total.2.2.2.1 (lit (".*abc$")) (by decide) (by decide)
  · exact (shape_decomposition_total.2.2.2.2.2 _).mpr ⟨lit ("oops"), by decide, by decide⟩

theorem check_words_simple_ok_eq {S R : Finset Str}
    (h : check_words_simple S = Except.ok R) : R = cws_redundant S := by
  unfold check_words_simple at h
  by_cases hex : ∃ w ∈ S, shape_of w = none
  · rw [if_pos hex] at h
    exact absurd h (by simp)
  · rw [if_neg hex] at h
    injection h with h
    exact h.symm

theorem mem_cws_redundant_anywhere {S : Finset Str} {w : Str} :
    rebuild ShapeKind.anywhereK w ∈ cws_redundant S ↔
      w ∈ bucket ShapeKind.anywhereK S ∧
        ∃ v ∈ bucket ShapeKind.anywhereK S, v.length < w.length ∧ v <:+: w := by
  unfold cws_redundant
  simp only [Finset.mem_union, Finset.mem_image, Finset.mem_filter]
  constructor
  · rintro (((⟨x, hx, heq⟩ | ⟨x, hx, heq⟩) | ⟨x, hx, heq⟩) | ⟨x, hx, heq⟩)
    · obtain ⟨_, hc⟩ := rebuild_inj heq
      subst hc
      exact ⟨hx.1, hx.2⟩
    · exact absurd (rebuild_inj heq).1 (by decide)
    · exact absurd (rebuild_inj heq).1 (by decide)
    · exact absurd (rebuild_inj heq).1 (by decide)
  · rintro ⟨hw, v, hv, hlen, hinf⟩
    exact Or.inl (Or.inl (Or.inl ⟨w, ⟨hw, v, hv, hlen, hinf⟩, rfl⟩))

theorem cws_redundant_subset (S : Finset Str) : cws_redundant S ⊆ S := by
  intro x hx
  unfold cws_redundant at hx
  simp only [Finset.mem_union, Finset.mem_image, Finset.mem_filter] at hx
  rcases hx with (((⟨w, ⟨hw, hcond⟩, rfl⟩ | ⟨w, ⟨hw, _⟩, rfl⟩) | ⟨w, ⟨hw, _⟩, rfl⟩) |
    ⟨w, ⟨hw, _⟩, rfl⟩)
  · obtain ⟨p, hpS, hsp⟩ := mem_bucket_iff.mp hw
    obtain ⟨v, _, hlen, _⟩ := hcond
    have hwne : w ≠ [] := by
      intro hn
      subst hn
      simp at hlen
    rw [rebuild_shape_of hsp (fun _ => hwne)]
    exact hpS
  · obtain ⟨p, hpS, hsp⟩ := mem_bucket_iff.mp hw
    rw [rebuild_shape_of hsp (fun hk => ShapeKind.noConfusion hk)]
    exact hpS
  · obtain ⟨p, hpS, hsp⟩ := mem_bucket_iff.mp hw
    rw [rebuild_shape_of hsp (fun hk => ShapeKind.noConfusion hk)]
    exact hpS
  · obtain ⟨p, hpS, hsp⟩ := mem_bucket_iff.mp hw
    rw [rebuild_shape_of hsp (fun hk => ShapeKind.noConfusion hk)]
    exact hpS

theorem run_main_eval_simple {W : Finset Str}
    (hok : check_words_simple (W \ complicated_of W) =
      Except.ok (cws_redundant (W \ complicated_of W)))
    (hc : complicated_of W = ∅) :
    run_main W = Except.ok ↑(W \ cws_redundant (W \ complicated_of W)) := by
  unfold run_main
  rw [hok]
  simp [hc]

/-- CLAIM C6.  The Anywhere subsumption rule: an anywhere pattern `.*w.*`
present in the input is flagged redundant iff some other anywhere core `v`
of length at most `w`'s occurs as a substring of `w` (the code's strict
length test plus substring test is equivalent, since an equal-length
substring would be the core itself); and the scenario
`{.*cat.*, .*cats.*}` reduces to `{.*cat.*}`. -/
theorem anywhere_subsumption :
    (∀ (S R : Finset Str) (w : Str),
      check_words_simple S = Except.ok R →
      rebuild ShapeKind.anywhereK w ∈ S →
      (rebuild ShapeKind.anywhereK w ∈ R ↔
        ∃ v ∈ bucket ShapeKind.anywhereK S, v ≠ w ∧ v.length ≤ w.length ∧
          v <:+: w)) ∧
    run_main {lit (".*cat.*"), lit (".*cats.*")} =
      Except.ok ↑({lit (".*cat.*")} : Finset Str) := by
  constructor
  · intro S R w hok hmem
    rw [check_words_simple_ok_eq hok, mem_cws_redundant_anywhere]
    have hbucket : w ∈ bucket ShapeKind.anywhereK S :=
      mem_bucket_iff.mpr ⟨rebuild ShapeKind.anywhereK w, hmem, shape_of_rebuild _ _⟩
    constructor
    · rintro ⟨_, v, hv, hlen, hinf⟩
      exact ⟨v, hv, fun he => absurd (he ▸ hlen) (lt_irrefl _), le_of_lt hlen, hinf⟩
    · rintro ⟨v, hv, hne, hle, hinf⟩
      refine ⟨hbucket, v, hv, ?_, hinf⟩
      rcases lt_or_eq_of_le hle with hlt | heq
      · exact hlt
      · exact absurd (hinf.eq_of_length heq) hne
  · have h1 := run_main_eval_simple
      (W := {lit (".*cat.*"), lit (".*cats.*")}) (by decide) (by decide)
    rw [h1]
    have h2 : (({lit (".*cat.*"), lit (".*cats.*")} : Finset Str) \
        cws_redundant (({lit (".*cat.*"), lit (".*cats.*")} : Finset Str) \
          complicated_of {lit (".*cat.*"), lit (".*cats.*")})) =
        {lit (".*cat.*")} := by decide
    rw [h2]

/-- Witness for C6: the rule instantiated on the concrete input of the
scenario, flagging `.*cats.*`. -/
theorem anywhere_subsumption_witness :
    rebuild ShapeKind.anywhereK (lit ("cats")) ∈
      cws_redundant {lit (".*cat.*"), lit (".*cats.*")} ↔
      ∃ v ∈ bucket ShapeKind.anywhereK {lit (".*cat.*"), lit (".*cats.*")},
        v ≠ lit ("cats") ∧ v.length ≤ (lit ("cats")).length ∧ v <:+: lit ("cats") :=
  anywhere_subsumption.1 {lit (".*cat.*"), lit (".*cats.*")} _ (lit ("cats"))
    (by decide) (by decide)

/-- CLAIM C8.  Monotone reduction: each stage returns a subset of the
pattern set it filters (for `check_words_simple`, of the simple patterns it
was given — its rebuilt redundant strings are exactly input patterns), and
a completed run's output is a subset of the input pattern set. -/
theorem stages_monotone :
    (∀ S R : Finset Str, check_words_simple S = Except.ok R → R ⊆ S) ∧
    (∀ S C : Finset Str, check_words_simple_complicated S C ⊆ S) ∧
    (∀ C : Finset Str, check_words_complicated C ⊆ ↑C) ∧
    (∀ (W : Finset Str) (out : Set Str),
      run_main W = Except.ok out → out ⊆ ↑W) := by
  refine ⟨?_, ?_, ?_, ?_⟩
  · intro S R h
    rw [check_words_simple_ok_eq h]
    exact cws_redundant_subset S
  · intro S C
    exact Finset.filter_subset _ S
  · intro C x hx
    exact Finset.mem_coe.mpr hx.1
  · intro W out h
    unfold run_main at h
    cases hck : check_words_simple (W \ complicated_of W) with
    | error e =>
      rw [hck] at h
      exact absurd h (by simp)
    | ok red1 =>
      rw [hck] at h
      dsimp only at h
      by_cases hc : complicated_of W = ∅
      · rw [if_pos hc] at h
        simp only [Except.ok.injEq] at h
        rw [← h]
        intro x hx
        exact Finset.mem_coe.mpr (Finset.mem_sdiff.mp (Finset.mem_coe.mp hx)).1
      · rw [if_neg hc] at h
        simp only [Except.ok.injEq] at h
        rw [← h]
        intro x hx
        have hx1 := (Set.mem_diff x).mp hx
        have hx2 := Finset.mem_coe.mp hx1.1
        have hx3 := (Finset.mem_sdiff.mp hx2).1
        exact Finset.mem_coe.mpr (Finset.mem_sdiff.mp hx3).1

/-- Witness for C8: the subset facts instantiated on the anywhere scenario
input. -/
theorem stages_monotone_witness :
    ({lit (".*cats.*")} : Finset Str) ⊆ {lit (".*cat.*"), lit (".*cats.*")} :=
  stages_monotone.1 {lit (".*cat.*"), lit (".*cats.*")} {lit (".*cats.*")}
    (by decide)

theorem run_main_eval_full {W : Finset Str}
    (hok : check_words_simple (W \ complicated_of W) =
      Except.ok (cws_redundant (W \ complicated_of W)))
    (hc : ¬ complicated_of W = ∅) :
    run_main W = Except.ok
      (↑((W \ cws_redundant (W \ complicated_of W)) \
          check_words_simple_complicated
            ((W \ cws_redundant (W \ complicated_of W)) \ complicated_of W)
            (complicated_of W)) \
        check_words_complicated (complicated_of W)) := by
  unfold run_main
  rw [hok]
  simp [hc]

theorem check_words_complicated_singleton (w : Str) :
    check_words_complicated {w} = ∅ := by
  ext x
  simp only [check_words_complicated, Set.mem_setOf_eq, Finset.mem_singleton,
    Set.mem_empty_iff_false, iff_false, not_and]
  rintro rfl ⟨ts, _, sub, hsub, hne, _⟩
  rw [Finset.mem_singleton] at hsub
  exact hne hsub

theorem c3_run_main_eval :
    run_main {lit ("^(a|ab)$"), lit ("^a.*$")} =
      Except.ok ↑({lit ("^(a|ab)$"), lit ("^a.*$")} : Finset Str) := by
  have h := run_main_eval_full
    (W := {lit ("^(a|ab)$"), lit ("^a.*$")}) (by decide) (by decide)
  rw [h]
  have hfin : ((({lit ("^(a|ab)$"), lit ("^a.*$")} : Finset Str) \
      cws_redundant ({lit ("^(a|ab)$"), lit ("^a.*$")} \
        complicated_of {lit ("^(a|ab)$"), lit ("^a.*$")})) \
      check_words_simple_complicated
        (({lit ("^(a|ab)$"), lit ("^a.*$")} \
          cws_redundant ({lit ("^(a|ab)$"), lit ("^a.*$")} \
            complicated_of {lit ("^(a|ab)$"), lit ("^a.*$")})) \
          complicated_of {lit ("^(a|ab)$"), lit ("^a.*$")})
        (complicated_of {lit ("^(a|ab)$"), lit ("^a.*$")})) =
      {lit ("^(a|ab)$"), lit ("^a.*$")} := by decide
  rw [hfin]
  have hcomp : complicated_of {lit ("^(a|ab)$"), lit ("^a.*$")} =
      {lit ("^(a|ab)$")} := by decide
  rw [hcomp, check_words_complicated_singleton]
  simp

theorem c3_lang_subset :
    patternLang (lit ("^(a|ab)$")) ⊆ patternLang (lit ("^a.*$")) := by
  intro s hs
  have h1 : parseRe (lit ("^(a|ab)$")) = some (Reg.seq
      (Reg.alt (Reg.seq (Reg.lit 'a') Reg.eps)
        (Reg.seq (Reg.lit 'a') (Reg.seq (Reg.lit 'b') Reg.eps)))
      Reg.eps, true) := by decide
  have h2 : parseRe (lit ("^a.*$")) = some (Reg.seq (Reg.lit 'a')
      (Reg.seq Reg.anyStar Reg.eps), true) := by decide
  simp only [patternLang, Set.mem_setOf_eq] at hs ⊢
  unfold reMatchP at hs ⊢
  rw [h1] at hs
  rw [h2]
  simp only [if_pos] at hs ⊢
  simp only [rmatch_seq_iff, rmatch_alt_iff, rmatch_lit_iff, rmatch_eps_iff,
    rmatch_anyStar_iff] at hs
  obtain ⟨s1, s2, rfl, hs1, rfl⟩ := hs
  rcases hs1 with ⟨t1, t2, rfl, rfl, rfl⟩ | ⟨t1, t2, rfl, rfl, u1, u2, rfl, rfl, rfl⟩
  · exact matchesB_iff.mp (by decide)
  · exact matchesB_iff.mp (by decide)

/-- CLAIM C3, counterexample.  On the input `{^(a|ab)$, ^a.*$}` the full
reduction does not remove `^(a|ab)$`: the output equals the input, which
differs from the claimed output `{^a.*$}`. -/
theorem complicated_scenario_cex :
    run_main {lit ("^(a|ab)$"), lit ("^a.*$")} =
      Except.ok ↑({lit ("^(a|ab)$"), lit ("^a.*$")} : Finset Str) ∧
    lit ("^(a|ab)$") ∈
      (↑({lit ("^(a|ab)$"), lit ("^a.*$")} : Finset Str) : Set Str) ∧
    (↑({lit ("^(a|ab)$"), lit ("^a.*$")} : Finset Str) : Set Str) ≠
      ↑({lit ("^a.*$")} : Finset Str) := by
  refine ⟨c3_run_main_eval, by simp, ?_⟩
  intro h
  have h2 : lit ("^(a|ab)$") ∈ (↑({lit ("^a.*$")} : Finset Str) : Set Str) := by
    rw [← h]
    simp
  rw [Finset.mem_coe, Finset.mem_singleton] at h2
  exact absurd h2 (by decide)

/-- CLAIM C3, amended.  The full reduction leaves `{^(a|ab)$, ^a.*$}`
unchanged: the language of `^(a|ab)$` is indeed contained in that of
`^a.*$`, but the cross engine removes only simple patterns and the
complicated engine compares complicated patterns only with each other, so
the redundant complicated pattern survives and the output equals the
input. -/
theorem complicated_scenario_amended :
    run_main {lit ("^(a|ab)$"), lit ("^a.*$")} =
      Except.ok ↑({lit ("^(a|ab)$"), lit ("^a.*$")} : Finset Str) ∧
    patternLang (lit ("^(a|ab)$")) ⊆ patternLang (lit ("^a.*$")) ∧
    lit ("^(a|ab)$") ≠ lit ("^a.*$") :=
  ⟨c3_run_main_eval, c3_lang_subset, by decide⟩

theorem lang_paren_a : langFull (lit ("(a)")) = {s : Str | s = ['a']} := by
  unfold langFull
  rw [show parseG (lit ("(a)")) =
    some (Reg.seq (Reg.seq (Reg.lit 'a') Reg.eps) Reg.eps) from by decide]
  ext s
  simp

theorem lang_paren_aa : langFull (lit ("(a|a)")) = {s : Str | s = ['a']} := by
  unfold langFull
  rw [show parseG (lit ("(a|a)")) =
    some (Reg.seq (Reg.alt (Reg.seq (Reg.lit 'a') Reg.eps)
      (Reg.seq (Reg.lit 'a') Reg.eps)) Reg.eps) from by decide]
  ext s
  simp

theorem lang_c1_union_left : langFull (lit ("(a)|(a|a)")) = {s : Str | s = ['a']} := by
  unfold langFull
  rw [show parseG (lit ("(a)|(a|a)")) =
    some (Reg.alt (Reg.seq (Reg.seq (Reg.lit 'a') Reg.eps) Reg.eps)
      (Reg.seq (Reg.alt (Reg.seq (Reg.lit 'a') Reg.eps)
        (Reg.seq (Reg.lit 'a') Reg.eps)) Reg.eps)) from by decide]
  ext s
  simp

theorem lang_c1_union_right : langFull (lit ("(a|a)|(a)")) = {s : Str | s = ['a']} := by
  unfold langFull
  rw [show parseG (lit ("(a|a)|(a)")) =
    some (Reg.alt (Reg.seq (Reg.alt (Reg.seq (Reg.lit 'a') Reg.eps)
        (Reg.seq (Reg.lit 'a') Reg.eps)) Reg.eps)
      (Reg.seq (Reg.seq (Reg.lit 'a') Reg.eps) Reg.eps)) from by decide]
  ext s
  simp

theorem c1_finds_first :
    check_words_complicated_helper_finds (lit ("^(a)$"))
      {lit ("^(a)$"), lit ("^(a|a)$")} := by
  refine ⟨[['a']], ?_, lit ("^(a|a)$"), by decide, by decide, by decide, ?_, ?_⟩
  · refine ⟨by simp, by simp, ?_, ?_⟩
    · intro t ht
      simp only [List.mem_singleton] at ht
      subst ht
      unfold sample_lang
      rw [show clean_pattern (elide_wildcards (lit ("^(a)$"))) = lit ("(a)") from by
        decide, lang_paren_a]
      rfl
    · intro _ t ht
      unfold sample_lang at ht
      rw [show clean_pattern (elide_wildcards (lit ("^(a)$"))) = lit ("(a)") from by
        decide, lang_paren_a] at ht
      simpa using ht
  · intro t ht
    simp only [List.mem_singleton] at ht
    subst ht
    exact reMatchB_iff.mp (by decide)
  · unfold equiv_filter
    rw [show clean_pattern (lit ("^(a)$")) ++ '|' :: clean_pattern (lit ("^(a|a)$")) =
      lit ("(a)|(a|a)") from by decide]
    rw [show clean_pattern (lit ("^(a|a)$")) = lit ("(a|a)") from by decide]
    rw [lang_c1_union_left, lang_paren_aa]

theorem c1_finds_second :
    check_words_complicated_helper_finds (lit ("^(a|a)$"))
      {lit ("^(a)$"), lit ("^(a|a)$")} := by
  refine ⟨[['a']], ?_, lit ("^(a)$"), by decide, by decide, by decide, ?_, ?_⟩
  · refine ⟨by simp, by simp, ?_, ?_⟩
    · intro t ht
      simp only [List.mem_singleton] at ht
      subst ht
      unfold sample_lang
      rw [show clean_pattern (elide_wildcards (lit ("^(a|a)$"))) = lit ("(a|a)") from by
        decide, lang_paren_aa]
      rfl
    · intro _ t ht
      unfold sample_lang at ht
      rw [show clean_pattern (elide_wildcards (lit ("^(a|a)$"))) = lit ("(a|a)") from by
        decide, lang_paren_aa] at ht
      simpa using ht
  · intro t ht
    simp only [List.mem_singleton] at ht
    subst ht
    exact reMatchB_iff.mp (by decide)
  · unfold equiv_filter
    rw [show clean_pattern (lit ("^(a|a)$")) ++ '|' :: clean_pattern (lit ("^(a)$")) =
      lit ("(a|a)|(a)") from by decide]
    rw [show clean_pattern (lit ("^(a)$")) = lit ("(a)") from by decide]
    rw [lang_c1_union_right, lang_paren_a]

/-- CLAIM C1, failing input.  On `{^(a)$, ^(a|a)$}` — two distinct
complicated patterns with the same language `{a}` — `check_words_complicated`
finds each pattern equivalent to the other against the same frozen set, so
`main` removes BOTH and the output is empty: the string `a` is matched by
the input set but by nothing in the output, violating soundness. -/
theorem soundness_double_removal :
    run_main {lit ("^(a)$"), lit ("^(a|a)$")} = Except.ok (∅ : Set Str) ∧
    lit ("a") ∈ ⋃ p ∈ (↑({lit ("^(a)$"), lit ("^(a|a)$")} : Finset Str) : Set Str),
      patternLang p ∧
    ¬ lit ("a") ∈ ⋃ p ∈ (∅ : Set Str), patternLang p := by
  refine ⟨?_, ?_, by simp⟩
  · have h := run_main_eval_full
      (W := {lit ("^(a)$"), lit ("^(a|a)$")}) (by decide) (by decide)
    rw [h]
    have hcomp : complicated_of {lit ("^(a)$"), lit ("^(a|a)$")} =
        {lit ("^(a)$"), lit ("^(a|a)$")} := by decide
    have hfin : ((({lit ("^(a)$"), lit ("^(a|a)$")} : Finset Str) \
        cws_redundant ({lit ("^(a)$"), lit ("^(a|a)$")} \
          complicated_of {lit ("^(a)$"), lit ("^(a|a)$")})) \
        check_words_simple_complicated
          (({lit ("^(a)$"), lit ("^(a|a)$")} \
            cws_redundant ({lit ("^(a)$"), lit ("^(a|a)$")} \
              complicated_of {lit ("^(a)$"), lit ("^(a|a)$")})) \
            complicated_of {lit ("^(a)$"), lit ("^(a|a)$")})
          (complicated_of {lit ("^(a)$"), lit ("^(a|a)$")})) =
        {lit ("^(a)$"), lit ("^(a|a)$")} := by decide
    rw [hfin, hcomp]
    have hsub : (↑({lit ("^(a)$"), lit ("^(a|a)$")} : Finset Str) : Set Str) ⊆
        check_words_complicated {lit ("^(a)$"), lit ("^(a|a)$")} := by
      intro x hx
      rw [Finset.mem_coe, Finset.mem_insert, Finset.mem_singleton] at hx
      rcases hx with rfl | rfl
      · exact ⟨by decide, c1_finds_first⟩
      · exact ⟨by decide, c1_finds_second⟩
    rw [Set.diff_eq_empty.mpr hsub]
  · refine Set.mem_biUnion (show lit ("^(a)$") ∈
      (↑({lit ("^(a)$"), lit ("^(a|a)$")} : Finset Str) : Set Str) from by simp) ?_
    show reMatchP (lit ("^(a)$")) (lit ("a"))
    exact reMatchB_iff.mp (by decide)

theorem c2_red3_empty :
    check_words_complicated {lit ("^(a)$"), lit ("^(.|b)$")} = ∅ := by
  ext x
  simp only [check_words_complicated, Set.mem_setOf_eq, Set.mem_empty_iff_false,
    iff_false, not_and]
  rintro hx ⟨ts, _, sub, hsub, hne, hov, _⟩
  rw [Finset.mem_insert, Finset.mem_singleton] at hx hsub
  rcases hx with rfl | rfl <;> rcases hsub with rfl | rfl
  · exact hne rfl
  · exact hov (by decide)
  · exact hov (by decide)
  · exact hne rfl

theorem c2_run_main_eval :
    run_main {lit ("^(a)$"), lit ("^(.|b)$")} =
      Except.ok ↑({lit ("^(a)$"), lit ("^(.|b)$")} : Finset Str) := by
  have h := run_main_eval_full
    (W := {lit ("^(a)$"), lit ("^(.|b)$")}) (by decide) (by decide)
  rw [h]
  have hfin : ((({lit ("^(a)$"), lit ("^(.|b)$")} : Finset Str) \
      cws_redundant ({lit ("^(a)$"), lit ("^(.|b)$")} \
        complicated_of {lit ("^(a)$"), lit ("^(.|b)$")})) \
      check_words_simple_complicated
        (({lit ("^(a)$"), lit ("^(.|b)$")} \
          cws_redundant ({lit ("^(a)$"), lit ("^(.|b)$")} \
            complicated_of {lit ("^(a)$"), lit ("^(.|b)$")})) \
          complicated_of {lit ("^(a)$"), lit ("^(.|b)$")})
        (complicated_of {lit ("^(a)$"), lit ("^(.|b)$")})) =
      {lit ("^(a)$"), lit ("^(.|b)$")} := by decide
  have hcomp : complicated_of {lit ("^(a)$"), lit ("^(.|b)$")} =
      {lit ("^(a)$"), lit ("^(.|b)$")} := by decide
  rw [hfin, hcomp, c2_red3_empty]
  simp

theorem c2_lang_subset :
    patternLang (lit ("^(a)$")) ⊆ patternLang (lit ("^(.|b)$")) := by
  intro s hs
  have h1 : parseRe (lit ("^(a)$")) =
      some (Reg.seq (Reg.seq (Reg.lit 'a') Reg.eps) Reg.eps, true) := by decide
  have h2 : parseRe (lit ("^(.|b)$")) =
      some (Reg.seq (Reg.alt (Reg.seq Reg.dot Reg.eps)
        (Reg.seq (Reg.lit 'b') Reg.eps)) Reg.eps, true) := by decide
  simp only [patternLang, Set.mem_setOf_eq] at hs ⊢
  unfold reMatchP at hs ⊢
  rw [h1] at hs
  rw [h2]
  simp only [if_pos] at hs ⊢
  simp only [rmatch_seq_iff, rmatch_lit_iff, rmatch_eps_iff] at hs
  obtain ⟨s1, s2, rfl, ⟨t1, t2, rfl, rfl, rfl⟩, rfl⟩ := hs
  exact matchesB_iff.mp (by decide)

/-- CLAIM C2, counterexample.  On the input `{^(a)$, ^(.|b)$}` both patterns
survive the whole reduction, yet the language of `^(a)$` (just `a`) is
contained in that of `^(.|b)$` (all one-character strings): the
character-overlap fast filter sees no shared literal character and skips
the pair, so minimality fails. -/
theorem minimality_cex :
    run_main {lit ("^(a)$"), lit ("^(.|b)$")} =
      Except.ok ↑({lit ("^(a)$"), lit ("^(.|b)$")} : Finset Str) ∧
    lit ("^(a)$") ≠ lit ("^(.|b)$") ∧
    patternLang (lit ("^(a)$")) ⊆ patternLang (lit ("^(.|b)$")) :=
  ⟨c2_run_main_eval, by decide, c2_lang_subset⟩

/-- A literal core character: not a regex metacharacter and not a
backslash, so it parses as itself. -/
def plainChar (ch : Char) : Prop := ch ∉ meta_chars ∧ ch ≠ '\\'

instance plainChar.dec : DecidablePred plainChar := fun _ => instDecidableAnd

/-- The regex of a literal string: the sequence of its characters. -/
def litSeq : Str → Reg
  | [] => Reg.eps
  | a :: r => Reg.seq (Reg.lit a) (litSeq r)

/-- The regex of a literal string followed by the `.*` wildcard. -/
def litSeqStar : Str → Reg
  | [] => Reg.seq Reg.anyStar Reg.eps
  | a :: r => Reg.seq (Reg.lit a) (litSeqStar r)

theorem pAtom_plain {a : Char} {rest : Str} {f : Nat} (hf : 1 ≤ f)
    (hp : plainChar a) : pAtom f (a :: rest) = some (Reg.lit a, rest) := by
  obtain ⟨g, rfl⟩ : ∃ g, f = g + 1 := ⟨f - 1, by omega⟩
  obtain ⟨h1, h2⟩ := hp
  simp only [meta_chars, List.mem_cons, List.not_mem_nil, or_false, not_or] at h1
  unfold pAtom
  split <;> simp_all [specialRaw]

theorem pAtom_dotstar {rest : Str} {f : Nat} (hf : 1 ≤ f) :
    pAtom f ('.' :: '*' :: rest) = some (Reg.anyStar, rest) := by
  obtain ⟨g, rfl⟩ : ∃ g, f = g + 1 := ⟨f - 1, by omega⟩
  rfl

theorem pPost_plain {a : Char} {rest : Str} {f : Nat} (hf : 2 ≤ f)
    (hp : plainChar a) (hr : ∀ b ∈ rest.head?, b ≠ '?') :
    pPost f (a :: rest) = some (Reg.lit a, rest) := by
  obtain ⟨g, rfl⟩ : ∃ g, f = g + 1 := ⟨f - 1, by omega⟩
  unfold pPost
  rw [pAtom_plain (by omega) hp]
  cases rest with
  | nil => rfl
  | cons b r2 =>
    have hb := hr b rfl
    simp only [Option.bind_eq_bind, Option.some_bind]
    split <;> simp_all

theorem pPost_dotstar {rest : Str} {f : Nat} (hf : 2 ≤ f)
    (hr : ∀ b ∈ rest.head?, b ≠ '?') :
    pPost f ('.' :: '*' :: rest) = some (Reg.anyStar, rest) := by
  obtain ⟨g, rfl⟩ : ∃ g, f = g + 1 := ⟨f - 1, by omega⟩
  unfold pPost
  rw [pAtom_dotstar (by omega)]
  cases rest with
  | nil => rfl
  | cons b r2 =>
    have hb := hr b rfl
    simp only [Option.bind_eq_bind, Option.some_bind]
    split <;> simp_all

theorem pSeq_nil {f : Nat} (hf : 1 ≤ f) : pSeq f ([] : Str) = some (Reg.eps, []) := by
  obtain ⟨g, rfl⟩ : ∃ g, f = g + 1 := ⟨f - 1, by omega⟩
  rfl

theorem plain_head_ne {c : Str} (hc : ∀ ch ∈ c, plainChar ch) {x : Char}
    (hx : ¬ plainChar x) : ∀ b ∈ c.head?, b ≠ x := by
  intro b hb he
  cases c with
  | nil => exact absurd hb (by simp)
  | cons a r =>
    have hba : a = b := by injection hb
    exact hx (he ▸ hba ▸ hc a (by simp))

theorem pSeq_lits {c : Str} (hc : ∀ ch ∈ c, plainChar ch) :
    ∀ {f : Nat}, 2 * c.length + 1 ≤ f → pSeq f c = some (litSeq c, []) := by
  induction c with
  | nil => intro f hf; exact pSeq_nil (by omega)
  | cons a r ih =>
    intro f hf
    obtain ⟨g, rfl⟩ : ∃ g, f = g + 1 := ⟨f - 1, by omega⟩
    have hpa : plainChar a := hc a (by simp)
    have hpr : ∀ ch ∈ r, plainChar ch := fun ch hch => hc ch (by simp [hch])
    unfold pSeq
    split
    · rename_i heq; simp at heq
    · rename_i heq
      injection heq with ha _
      exact absurd ha.symm (by
        intro he
        exact hpa.1 (he ▸ by decide))
    · rename_i heq
      injection heq with ha _
      exact absurd ha.symm (by
        intro he
        exact hpa.1 (he ▸ by decide))
    · rw [pPost_plain (by simp at hf ⊢; omega) hpa
        (plain_head_ne hpr (by decide))]
      simp only [Option.bind_eq_bind, Option.some_bind]
      rw [ih hpr (by simp at hf ⊢; omega)]
      rfl

theorem pSeq_lits_star {c : Str} (hc : ∀ ch ∈ c, plainChar ch) :
    ∀ {f : Nat}, 2 * c.length + 4 ≤ f →
      pSeq f (c ++ ['.', '*']) = some (litSeqStar c, []) := by
  induction c with
  | nil =>
    intro f hf
    obtain ⟨g, rfl⟩ : ∃ g, f = g + 1 := ⟨f - 1, by omega⟩
    simp only [List.nil_append]
    unfold pSeq
    split
    · rename_i heq; simp at heq
    · rename_i heq; injection heq with ha _; exact absurd ha.symm (by decide)
    · rename_i heq; injection heq with ha _; exact absurd ha.symm (by decide)
    · rw [pPost_dotstar (by omega) (by simp)]
      simp only [Option.bind_eq_bind, Option.some_bind]
      rw [pSeq_nil (by omega)]
      rfl
  | cons a r ih =>
    intro f hf
    obtain ⟨g, rfl⟩ : ∃ g, f = g + 1 := ⟨f - 1, by omega⟩
    have hpa : plainChar a := hc a (by simp)
    have hpr : ∀ ch ∈ r, plainChar ch := fun ch hch => hc ch (by simp [hch])
    have hhead : ∀ b ∈ (r ++ ['.', '*']).head?, b ≠ '?' := by
      intro b hb
      cases r with
      | nil =>
        have hbd : '.' = b := by injection hb
        intro he
        rw [← hbd] at he
        exact absurd he (by decide)
      | cons x r2 =>
        have hbx : x = b := by injection hb
        have hpx := hc x (by simp)
        intro he
        apply hpx.1
        rw [hbx, he]
        decide
    show pSeq (g + 1) (a :: (r ++ ['.', '*'])) = _
    unfold pSeq
    split
    · rename_i heq; simp at heq
    · rename_i heq
      injection heq with ha _
      exact absurd ha.symm (by
        intro he
        exact hpa.1 (he ▸ by decide))
    · rename_i heq
      injection heq with ha _
      exact absurd ha.symm (by
        intro he
        exact hpa.1 (he ▸ by decide))
    · rw [pPost_plain (by simp at hf ⊢; omega) hpa hhead]
      simp only [Option.bind_eq_bind, Option.some_bind]
      rw [ih hpr (by simp at hf ⊢; omega)]
      rfl

theorem pSeq_star_lits {c : Str} (hc : ∀ ch ∈ c, plainChar ch) {f : Nat}
    (hf : 2 * c.length + 4 ≤ f) :
    pSeq f ('.' :: '*' :: c) = some (Reg.seq Reg.anyStar (litSeq c), []) := by
  obtain ⟨g, rfl⟩ : ∃ g, f = g + 1 := ⟨f - 1, by omega⟩
  unfold pSeq
  split
  · rename_i heq; simp at heq
  · rename_i heq; injection heq with ha _; exact absurd ha.symm (by decide)
  · rename_i heq; injection heq with ha _; exact absurd ha.symm (by decide)
  · rw [pPost_dotstar (by omega) (plain_head_ne hc (by decide))]
    simp only [Option.bind_eq_bind, Option.some_bind]
    rw [pSeq_lits hc (by omega)]
    rfl

theorem pSeq_star_lits_star {c : Str} (hc : ∀ ch ∈ c, plainChar ch) {f : Nat}
    (hf : 2 * c.length + 6 ≤ f) :
    pSeq f ('.' :: '*' :: (c ++ ['.', '*'])) =
      some (Reg.seq Reg.anyStar (litSeqStar c), []) := by
  obtain ⟨g, rfl⟩ : ∃ g, f = g + 1 := ⟨f - 1, by omega⟩
  have hhead : ∀ b ∈ (c ++ ['.', '*']).head?, b ≠ '?' := by
    intro b hb
    cases c with
    | nil =>
      have hbd : '.' = b := by injection hb
      intro he
      rw [← hbd] at he
      exact absurd he (by decide)
    | cons x r2 =>
      have hbx : x = b := by injection hb
      have hpx := hc x (by simp)
      intro he
      apply hpx.1
      rw [hbx, he]
      decide
  unfold pSeq
  split
  · rename_i heq; simp at heq
  · rename_i heq; injection heq with ha _; exact absurd ha.symm (by decide)
  · rename_i heq; injection heq with ha _; exact absurd ha.symm (by decide)
  · rw [pPost_dotstar (by omega) hhead]
    simp only [Option.bind_eq_bind, Option.some_bind]
    rw [pSeq_lits_star hc (by omega)]
    rfl

theorem pAlt_of_pSeq {s : Str} {r : Reg} {f : Nat}
    (h : pSeq f s = some (r, [])) : pAlt (f + 1) s = some (r, []) := by
  unfold pAlt
  rw [h]
  rfl

theorem parseG_lits {c : Str} (hc : ∀ ch ∈ c, plainChar ch) :
    parseG c = some (litSeq c) := by
  unfold parseG
  have h := pAlt_of_pSeq (f := 2 * c.length + 3) (pSeq_lits hc (by omega))
  rw [show 2 * c.length + 4 = 2 * c.length + 3 + 1 from rfl, h]

theorem parseG_lits_star {c : Str} (hc : ∀ ch ∈ c, plainChar ch) :
    parseG (c ++ ['.', '*']) = some (litSeqStar c) := by
  unfold parseG
  have h := pAlt_of_pSeq (f := 2 * (c ++ ['.', '*']).length + 3)
    (pSeq_lits_star hc (by simp; omega))
  rw [show 2 * (c ++ ['.', '*']).length + 4 =
    2 * (c ++ ['.', '*']).length + 3 + 1 from rfl, h]

theorem parseG_star_lits {c : Str} (hc : ∀ ch ∈ c, plainChar ch) :
    parseG ('.' :: '*' :: c) = some (Reg.seq Reg.anyStar (litSeq c)) := by
  unfold parseG
  have h := pAlt_of_pSeq (f := 2 * ('.' :: '*' :: c).length + 3)
    (pSeq_star_lits hc (by simp; omega))
  rw [show 2 * ('.' :: '*' :: c).length + 4 =
    2 * ('.' :: '*' :: c).length + 3 + 1 from rfl, h]

theorem parseG_star_lits_star {c : Str} (hc : ∀ ch ∈ c, plainChar ch) :
    parseG ('.' :: '*' :: (c ++ ['.', '*'])) =
      some (Reg.seq Reg.anyStar (litSeqStar c)) := by
  unfold parseG
  have h := pAlt_of_pSeq (f := 2 * ('.' :: '*' :: (c ++ ['.', '*'])).length + 3)
    (pSeq_star_lits_star hc (by simp; omega))
  rw [show 2 * ('.' :: '*' :: (c ++ ['.', '*'])).length + 4 =
    2 * ('.' :: '*' :: (c ++ ['.', '*'])).length + 3 + 1 from rfl, h]

theorem removePre_caret_cons {x : Str} : removePre ['^'] ('^' :: x) = x := by
  unfold removePre
  rw [if_pos (by simp [List.isPrefixOf])]
  rfl

theorem removePre_caret_dot {x : Str} : removePre ['^'] ('.' :: x) = '.' :: x := by
  unfold removePre
  rw [if_neg (by simp [List.isPrefixOf])]

theorem getLast?_append_pair {x : Str} {a b : Char} :
    (x ++ [a, b]).getLast? = some b := by
  rw [show x ++ [a, b] = (x ++ [a]) ++ [b] from by simp, List.getLast?_concat]

theorem plain_getLast_ne {c : Str} (hc : ∀ ch ∈ c, plainChar ch) :
    ¬ c.dropLast.getLast? = some '\\' := by
  intro h
  have hm : '\\' ∈ c.dropLast := List.mem_of_mem_getLast? h
  have hm2 : '\\' ∈ c := List.dropLast_subset c hm
  exact (hc _ hm2).2 rfl

theorem parseRe_whole {c : Str} (hc : ∀ ch ∈ c, plainChar ch) :
    parseRe (rebuild ShapeKind.wholeK c) = some (litSeq c, true) := by
  have hre : rebuild ShapeKind.wholeK c = '^' :: (c ++ ['$']) := rfl
  unfold parseRe
  rw [hre, removePre_caret_cons]
  rw [if_pos ⟨List.getLast?_concat _, by
    rw [dropLast_append_one]
    intro h
    have hm : '\\' ∈ c := List.mem_of_mem_getLast? h
    exact (hc _ hm).2 rfl⟩]
  rw [dropLast_append_one, parseG_lits hc]
  rfl

theorem parseRe_prefix_shape {c : Str} (hc : ∀ ch ∈ c, plainChar ch) :
    parseRe (rebuild ShapeKind.prefixK c) = some (litSeqStar c, false) := by
  have hre : rebuild ShapeKind.prefixK c = '^' :: (c ++ ['.', '*']) := rfl
  unfold parseRe
  rw [hre, removePre_caret_cons]
  rw [if_neg (by
    rintro ⟨h1, _⟩
    rw [getLast?_append_pair] at h1
    exact absurd (by injection h1) (by decide))]
  rw [parseG_lits_star hc]
  rfl

theorem parseRe_anywhere_shape {c : Str} (hc : ∀ ch ∈ c, plainChar ch) :
    parseRe (rebuild ShapeKind.anywhereK c) =
      some (Reg.seq Reg.anyStar (litSeqStar c), false) := by
  have hre : rebuild ShapeKind.anywhereK c = '.' :: '*' :: (c ++ ['.', '*']) := by
    simp [rebuild]
  unfold parseRe
  rw [hre, removePre_caret_dot]
  rw [if_neg (by
    rintro ⟨h1, _⟩
    rw [show '.' :: '*' :: (c ++ ['.', '*']) =
      ('.' :: '*' :: c) ++ ['.', '*'] from by simp, getLast?_append_pair] at h1
    exact absurd (by injection h1) (by decide))]
  rw [parseG_star_lits_star hc]
  rfl

theorem parseRe_suffix_shape {c : Str} (hc : ∀ ch ∈ c, plainChar ch) :
    parseRe (rebuild ShapeKind.suffixK c) =
      some (Reg.seq Reg.anyStar (litSeq c), true) := by
  have hre : rebuild ShapeKind.suffixK c = '.' :: '*' :: (c ++ ['$']) := by
    simp [rebuild]
  have hassoc : '.' :: '*' :: (c ++ ['$']) = ('.' :: '*' :: c) ++ ['$'] := by simp
  unfold parseRe
  rw [hre, removePre_caret_dot]
  rw [if_pos ⟨by rw [hassoc, List.getLast?_concat], by
    rw [hassoc, dropLast_append_one]
    intro h
    have hm : '\\' ∈ '.' :: '*' :: c := List.mem_of_mem_getLast? h
    simp only [List.mem_cons] at hm
    rcases hm with hm | hm | hm
    · exact absurd hm (by decide)
    · exact absurd hm (by decide)
    · exact (hc _ hm).2 rfl⟩]
  rw [hassoc, dropLast_append_one, parseG_star_lits hc]
  rfl

theorem rmatch_litSeq {c s : Str} : RMatch (litSeq c) s ↔ s = c := by
  induction c generalizing s with
  | nil => simp [litSeq]
  | cons a r ih =>
    simp only [litSeq, rmatch_seq_iff, rmatch_lit_iff, ih]
    constructor
    · rintro ⟨s1, s2, rfl, rfl, rfl⟩
      rfl
    · rintro rfl
      exact ⟨[a], r, rfl, rfl, rfl⟩

theorem rmatch_litSeqStar {c s : Str} :
    RMatch (litSeqStar c) s ↔ ∃ t, s = c ++ t := by
  induction c generalizing s with
  | nil =>
    simp only [litSeqStar, rmatch_seq_iff, rmatch_anyStar_iff, rmatch_eps_iff,
      true_and, List.nil_append]
    constructor
    · rintro ⟨s1, s2, rfl, rfl⟩
      exact ⟨s1, by simp⟩
    · rintro ⟨t, rfl⟩
      exact ⟨s, [], by simp, rfl⟩
  | cons a r ih =>
    simp only [litSeqStar, rmatch_seq_iff, rmatch_lit_iff, ih]
    constructor
    · rintro ⟨s1, s2, rfl, rfl, t, rfl⟩
      exact ⟨t, rfl⟩
    · rintro ⟨t, rfl⟩
      exact ⟨[a], r ++ t, rfl, rfl, t, rfl⟩

theorem patternLang_whole {c : Str} (hc : ∀ ch ∈ c, plainChar ch) :
    patternLang (rebuild ShapeKind.wholeK c) = {s : Str | s = c} := by
  ext s
  simp only [patternLang, Set.mem_setOf_eq]
  unfold reMatchP
  rw [parseRe_whole hc]
  simp [rmatch_litSeq]

theorem patternLang_prefix_shape {c : Str} (hc : ∀ ch ∈ c, plainChar ch) :
    patternLang (rebuild ShapeKind.prefixK c) = {s : Str | c <+: s} := by
  ext s
  simp only [patternLang, Set.mem_setOf_eq]
  unfold reMatchP
  rw [parseRe_prefix_shape hc]
  simp only [Bool.false_eq_true, if_false, rmatch_litSeqStar]
  constructor
  · rintro ⟨t1, t2, rfl, t, rfl⟩
    exact ⟨t ++ t2, by simp⟩
  · rintro ⟨t, rfl⟩
    exact ⟨c ++ t, [], by simp, t, rfl⟩

theorem patternLang_suffix_shape {c : Str} (hc : ∀ ch ∈ c, plainChar ch) :
    patternLang (rebuild ShapeKind.suffixK c) = {s : Str | c <:+ s} := by
  ext s
  simp only [patternLang, Set.mem_setOf_eq]
  unfold reMatchP
  rw [parseRe_suffix_shape hc]
  simp only [if_pos, rmatch_seq_iff, rmatch_anyStar_iff, rmatch_litSeq, true_and]
  constructor
  · rintro ⟨s1, s2, rfl, rfl⟩
    exact ⟨s1, rfl⟩
  · rintro ⟨t, rfl⟩
    exact ⟨t, c, rfl, rfl⟩

theorem patternLang_anywhere_shape {c : Str} (hc : ∀ ch ∈ c, plainChar ch) :
    patternLang (rebuild ShapeKind.anywhereK c) = {s : Str | c <:+: s} := by
  ext s
  simp only [patternLang, Set.mem_setOf_eq]
  unfold reMatchP
  rw [parseRe_anywhere_shape hc]
  simp only [Bool.false_eq_true, if_false, rmatch_seq_iff, rmatch_anyStar_iff,
    rmatch_litSeqStar, true_and]
  constructor
  · rintro ⟨t1, t2, rfl, u1, u2, rfl, t, rfl⟩
    exact ⟨u1, t ++ t2, by simp⟩
  · rintro ⟨u, t, rfl⟩
    exact ⟨u ++ c ++ t, [], by simp, u, c ++ t, by simp, t, rfl⟩

theorem mem_cws_redundant_prefixK {S : Finset Str} {w : Str} :
    rebuild ShapeKind.prefixK w ∈ cws_redundant S ↔
      w ∈ bucket ShapeKind.prefixK S ∧
        ((∃ v ∈ bucket ShapeKind.anywhereK S, v.length ≤ w.length ∧ v <:+: w) ∨
         (∃ v ∈ bucket ShapeKind.prefixK S, v.length < w.length ∧ v <+: w)) := by
  unfold cws_redundant
  simp only [Finset.mem_union, Finset.mem_image, Finset.mem_filter]
  constructor
  · rintro (((⟨x, hx, heq⟩ | ⟨x, hx, heq⟩) | ⟨x, hx, heq⟩) | ⟨x, hx, heq⟩)
    · exact absurd (rebuild_inj heq).1 (by decide)
    · obtain ⟨_, hc⟩ := rebuild_inj heq
      subst hc
      exact ⟨hx.1, hx.2⟩
    · exact absurd (rebuild_inj heq).1 (by decide)
    · exact absurd (rebuild_inj heq).1 (by decide)
  · rintro ⟨hw, hcond⟩
    exact Or.inl (Or.inl (Or.inr ⟨w, ⟨hw, hcond⟩, rfl⟩))

theorem mem_cws_redundant_suffix {S : Finset Str} {w : Str} :
    rebuild ShapeKind.suffixK w ∈ cws_redundant S ↔
      w ∈ bucket ShapeKind.suffixK S ∧
        ((∃ v ∈ bucket ShapeKind.anywhereK S, v.length ≤ w.length ∧ v <:+: w) ∨
         (∃ v ∈ bucket ShapeKind.suffixK S, v.length < w.length ∧ v <:+ w)) := by
  unfold cws_redundant
  simp only [Finset.mem_union, Finset.mem_image, Finset.mem_filter]
  constructor
  · rintro (((⟨x, hx, heq⟩ | ⟨x, hx, heq⟩) | ⟨x, hx, heq⟩) | ⟨x, hx, heq⟩)
    · exact absurd (rebuild_inj heq).1 (by decide)
    · exact absurd (rebuild_inj heq).1 (by decide)
    · obtain ⟨_, hc⟩ := rebuild_inj heq
      subst hc
      exact ⟨hx.1, hx.2⟩
    · exact absurd (rebuild_inj heq).1 (by decide)
  · rintro ⟨hw, hcond⟩
    exact Or.inl (Or.inr ⟨w, ⟨hw, hcond⟩, rfl⟩)

theorem mem_cws_redundant_whole {S : Finset Str} {w : Str} :
    rebuild ShapeKind.wholeK w ∈ cws_redundant S ↔
      w ∈ bucket ShapeKind.wholeK S ∧
        ((∃ v ∈ bucket ShapeKind.anywhereK S, v.length ≤ w.length ∧ v <:+: w) ∨
         (∃ v ∈ bucket ShapeKind.prefixK S, v.length ≤ w.length ∧ v <+: w) ∨
         (∃ v ∈ bucket ShapeKind.suffixK S, v.length ≤ w.length ∧ v <:+ w)) := by
  unfold cws_redundant
  simp only [Finset.mem_union, Finset.mem_image, Finset.mem_filter]
  constructor
  · rintro (((⟨x, hx, heq⟩ | ⟨x, hx, heq⟩) | ⟨x, hx, heq⟩) | ⟨x, hx, heq⟩)
    · exact absurd (rebuild_inj heq).1 (by decide)
    · exact absurd (rebuild_inj heq).1 (by decide)
    · exact absurd (rebuild_inj heq).1 (by decide)
    · obtain ⟨_, hc⟩ := rebuild_inj heq
      subst hc
      exact ⟨hx.1, hx.2⟩
  · rintro ⟨hw, hcond⟩
    exact Or.inr ⟨w, ⟨hw, hcond⟩, rfl⟩

theorem fresh_char (x : Char) : ∃ c0 : Char, c0 ≠ x := by
  by_cases h : x = 'a'
  · exact ⟨'b', by rw [h]; decide⟩
  · exact ⟨'a', fun he => h he.symm⟩

theorem prefix_cons_head {bh c0 : Char} {bt rest : Str}
    (h : (bh :: bt) <+: (c0 :: rest)) : bh = c0 := by
  obtain ⟨t, ht⟩ := h
  injection ht

theorem suffix_concat_last {b y : Str} {v : Char} (hb : b ≠ [])
    (h : b <:+ y ++ [v]) : ∃ bt, b = bt ++ [v] := by
  obtain ⟨t, ht⟩ := h
  have hbl : b = b.dropLast ++ [b.getLast hb] := (List.dropLast_append_getLast hb).symm
  have h1 : (t ++ b).getLast? = some v := by
    rw [ht, List.getLast?_concat]
  have h2 : (t ++ b).getLast? = some (b.getLast hb) := by
    conv_lhs => rw [show t ++ b = (t ++ b.dropLast) ++ [b.getLast hb] from by
      rw [List.append_assoc, ← hbl]]
    rw [List.getLast?_concat]
  rw [h1] at h2
  have h3 : v = b.getLast hb := by injection h2
  refine ⟨b.dropLast, ?_⟩
  conv_lhs => rw [hbl]
  rw [h3]

theorem mem_rebuild {x : Char} {k : ShapeKind} {c : Str}
    (h : x ∈ rebuild k c) : x ∈ c ∨ x ∈ ['.', '*', '^', '$'] := by
  cases k <;> simp only [rebuild, List.mem_append, List.mem_cons,
    List.not_mem_nil, or_false] at h <;>
    rcases h with h | h <;> simp_all [List.mem_cons] <;> tauto

/-- CLAIM C2, amended.  Minimality holds for simple-only in-dialect inputs:
when every pattern of the input is one of the four shapes built over a
nonempty core of literal characters, no two distinct survivors of the run
have one matched language contained in the other.  (The unrestricted claim
fails: with complicated patterns the heuristic filters can leave redundant
survivors, and an empty core such as `.*$` covers patterns no rule
checks.) -/
theorem minimality_simple_amended (W : Finset Str) (out : Set Str)
    (hW : ∀ w ∈ W, ∃ k : ShapeKind, ∃ c : Str, c ≠ [] ∧
      (∀ ch ∈ c, plainChar ch) ∧ w = rebuild k c)
    (hrun : run_main W = Except.ok out) :
    ∀ p ∈ out, ∀ q ∈ out, p ≠ q → ¬ (patternLang p ⊆ patternLang q) := by
  have hcomp : complicated_of W = ∅ := by
    unfold complicated_of
    rw [Finset.filter_eq_empty_iff]
    intro w hw
    obtain ⟨k, c, _, hcp, rfl⟩ := hW w hw
    rintro ⟨sp, hsp, hmem⟩
    have hspm : sp ∈ meta_chars := by
      simp only [complicated_chars, List.mem_cons, List.not_mem_nil, or_false] at hsp
      rcases hsp with rfl | rfl | rfl | rfl | rfl | rfl <;> decide
    rcases mem_rebuild hmem with hin | hin
    · exact (hcp sp hin).1 hspm
    · simp only [List.mem_cons, List.not_mem_nil, or_false] at hin
      simp only [complicated_chars, List.mem_cons, List.not_mem_nil, or_false] at hsp
      rcases hin with rfl | rfl | rfl | rfl <;>
        rcases hsp with h | h | h | h | h | h <;> exact absurd h (by decide)
  have hok : check_words_simple W = Except.ok (cws_redundant W) := by
    unfold check_words_simple
    rw [if_neg]
    rintro ⟨w, hw, hnone⟩
    obtain ⟨k, c, _, _, rfl⟩ := hW w hw
    rw [shape_of_rebuild] at hnone
    exact absurd hnone (by simp)
  have hout : out = ↑(W \ cws_redundant W) := by
    unfold run_main at hrun
    rw [hcomp, Finset.sdiff_empty, hok] at hrun
    dsimp only at hrun
    rw [if_pos rfl] at hrun
    injection hrun with hrun
    exact hrun.symm
  intro p hp q hq hne hsub
  rw [hout, Finset.mem_coe, Finset.mem_sdiff] at hp hq
  obtain ⟨hpW, hpnr⟩ := hp
  obtain ⟨hqW, hqnr⟩ := hq
  obtain ⟨kp, a, hane, hap, rfl⟩ := hW p hpW
  obtain ⟨kq, b, hbne, hbp, rfl⟩ := hW q hqW
  have hbq : b ∈ bucket kq W := mem_bucket_iff.mpr ⟨_, hqW, shape_of_rebuild kq b⟩
  have hba : a ∈ bucket kp W := mem_bucket_iff.mpr ⟨_, hpW, shape_of_rebuild kp a⟩
  cases kp <;> cases kq
  · -- anywhere ⊆ anywhere: flagged by the anywhere rule
    rw [patternLang_anywhere_shape hap, patternLang_anywhere_shape hbp] at hsub
    have hinf : b <:+: a := hsub (List.infix_refl a)
    have hne2 : b ≠ a := fun he => hne (by rw [he])
    have hlt : b.length < a.length :=
      lt_of_le_of_ne hinf.length_le (fun he => hne2 (hinf.eq_of_length he))
    exact hpnr (mem_cws_redundant_anywhere.mpr ⟨hba, b, hbq, hlt, hinf⟩)
  · -- anywhere ⊆ prefix: impossible (prepend a fresh character)
    rw [patternLang_anywhere_shape hap, patternLang_prefix_shape hbp] at hsub
    obtain ⟨bh, bt, rfl⟩ : ∃ bh bt, b = bh :: bt := by
      cases b with
      | nil => exact absurd rfl hbne
      | cons x y => exact ⟨x, y, rfl⟩
    obtain ⟨c0, hc0⟩ := fresh_char bh
    have hpre : (bh :: bt) <+: (c0 :: a) := hsub (List.suffix_cons c0 a).isInfix
    exact hc0 (prefix_cons_head hpre).symm
  · -- anywhere ⊆ suffix: impossible (append two different characters)
    rw [patternLang_anywhere_shape hap, patternLang_suffix_shape hbp] at hsub
    obtain ⟨bt1, hb1⟩ := suffix_concat_last hbne
      (hsub (List.prefix_append a ['a']).isInfix)
    obtain ⟨bt2, hb2⟩ := suffix_concat_last hbne
      (hsub (List.prefix_append a ['b']).isInfix)
    have h3 := congrArg List.getLast? (hb1.symm.trans hb2)
    rw [List.getLast?_concat, List.getLast?_concat] at h3
    exact absurd (by injection h3) (by decide)
  · -- anywhere ⊆ whole: impossible (two strings of different lengths)
    rw [patternLang_anywhere_shape hap, patternLang_whole hbp] at hsub
    have h1 : a = b := hsub (List.infix_refl a)
    have h2 : a ++ ['a'] = b := hsub (List.prefix_append a ['a']).isInfix
    rw [← h1] at h2
    have h3 := congrArg List.length h2
    simp at h3
  · -- prefix ⊆ anywhere: flagged by the prefix rule, anywhere branch
    rw [patternLang_prefix_shape hap, patternLang_anywhere_shape hbp] at hsub
    have hinf : b <:+: a := hsub (List.prefix_refl a)
    exact hpnr (mem_cws_redundant_prefixK.mpr
      ⟨hba, Or.inl ⟨b, hbq, hinf.length_le, hinf⟩⟩)
  · -- prefix ⊆ prefix: flagged by the prefix rule, prefix branch
    rw [patternLang_prefix_shape hap, patternLang_prefix_shape hbp] at hsub
    have hpre : b <+: a := hsub (List.prefix_refl a)
    have hne2 : b ≠ a := fun he => hne (by rw [he])
    have hlt : b.length < a.length :=
      lt_of_le_of_ne hpre.length_le (fun he => hne2 (hpre.eq_of_length he))
    exact hpnr (mem_cws_redundant_prefixK.mpr
      ⟨hba, Or.inr ⟨b, hbq, hlt, hpre⟩⟩)
  · -- prefix ⊆ suffix: impossible
    rw [patternLang_prefix_shape hap, patternLang_suffix_shape hbp] at hsub
    obtain ⟨bt1, hb1⟩ := suffix_concat_last hbne (hsub (List.prefix_append a ['a']))
    obtain ⟨bt2, hb2⟩ := suffix_concat_last hbne (hsub (List.prefix_append a ['b']))
    have h3 := congrArg List.getLast? (hb1.symm.trans hb2)
    rw [List.getLast?_concat, List.getLast?_concat] at h3
    exact absurd (by injection h3) (by decide)
  · -- prefix ⊆ whole: impossible
    rw [patternLang_prefix_shape hap, patternLang_whole hbp] at hsub
    have h1 : a = b := hsub (List.prefix_refl a)
    have h2 : a ++ ['a'] = b := hsub (List.prefix_append a ['a'])
    rw [← h1] at h2
    have h3 := congrArg List.length h2
    simp at h3
  · -- suffix ⊆ anywhere: flagged by the suffix rule, anywhere branch
    rw [patternLang_suffix_shape hap, patternLang_anywhere_shape hbp] at hsub
    have hinf : b <:+: a := hsub (List.suffix_refl a)
    exact hpnr (mem_cws_redundant_suffix.mpr
      ⟨hba, Or.inl ⟨b, hbq, hinf.length_le, hinf⟩⟩)
  · -- suffix ⊆ prefix: impossible
    rw [patternLang_suffix_shape hap, patternLang_prefix_shape hbp] at hsub
    obtain ⟨bh, bt, rfl⟩ : ∃ bh bt, b = bh :: bt := by
      cases b with
      | nil => exact absurd rfl hbne
      | cons x y => exact ⟨x, y, rfl⟩
    obtain ⟨c0, hc0⟩ := fresh_char bh
    have hpre : (bh :: bt) <+: (c0 :: a) := hsub (List.suffix_cons c0 a)
    exact hc0 (prefix_cons_head hpre).symm
  · -- suffix ⊆ suffix: flagged by the suffix rule, suffix branch
    rw [patternLang_suffix_shape hap, patternLang_suffix_shape hbp] at hsub
    have hsuf : b <:+ a := hsub (List.suffix_refl a)
    have hne2 : b ≠ a := fun he => hne (by rw [he])
    have hlt : b.length < a.length :=
      lt_of_le_of_ne hsuf.length_le (fun he => hne2 (hsuf.eq_of_length he))
    exact hpnr (mem_cws_redundant_suffix.mpr
      ⟨hba, Or.inr ⟨b, hbq, hlt, hsuf⟩⟩)
  · -- suffix ⊆ whole: impossible
    rw [patternLang_suffix_shape hap, patternLang_whole hbp] at hsub
    have h1 : a = b := hsub (List.suffix_refl a)
    have h2 : 'a' :: a = b := hsub (List.suffix_cons 'a' a)
    rw [← h1] at h2
    have h3 := congrArg List.length h2
    simp at h3
  · -- whole ⊆ anywhere: flagged by the whole rule, anywhere branch
    rw [patternLang_whole hap, patternLang_anywhere_shape hbp] at hsub
    have hinf : b <:+: a := hsub rfl
    exact hpnr (mem_cws_redundant_whole.mpr
      ⟨hba, Or.inl ⟨b, hbq, hinf.length_le, hinf⟩⟩)
  · -- whole ⊆ prefix: flagged by the whole rule, prefix branch
    rw [patternLang_whole hap, patternLang_prefix_shape hbp] at hsub
    have hpre : b <+: a := hsub rfl
    exact hpnr (mem_cws_redundant_whole.mpr
      ⟨hba, Or.inr (Or.inl ⟨b, hbq, hpre.length_le, hpre⟩)⟩)
  · -- whole ⊆ suffix: flagged by the whole rule, suffix branch
    rw [patternLang_whole hap, patternLang_suffix_shape hbp] at hsub
    have hsuf : b <:+ a := hsub rfl
    exact hpnr (mem_cws_redundant_whole.mpr
      ⟨hba, Or.inr (Or.inr ⟨b, hbq, hsuf.length_le, hsuf⟩)⟩)
  · -- whole ⊆ whole: distinct singleton languages
    rw [patternLang_whole hap, patternLang_whole hbp] at hsub
    have h1 : a = b := hsub rfl
    exact hne (by rw [h1])

/-- Witness for the amended C2: on `{^ab$, ^cd$}` the run keeps both and
neither language contains the other. -/
theorem minimality_simple_amended_witness :
    ¬ (patternLang (lit ("^ab$")) ⊆ patternLang (lit ("^cd$"))) :=
  minimality_simple_amended {lit ("^ab$"), lit ("^cd$")}
    (↑({lit ("^ab$"), lit ("^cd$")} : Finset Str))
    (by
      intro w hw
      rw [Finset.mem_insert, Finset.mem_singleton] at hw
      rcases hw with rfl | rfl
      · exact ⟨ShapeKind.wholeK, lit ("ab"), by decide, by decide, by decide⟩
      · exact ⟨ShapeKind.wholeK, lit ("cd"), by decide, by decide, by decide⟩)
    (by
      have h := run_main_eval_simple
        (W := {lit ("^ab$"), lit ("^cd$")}) (by decide) (by decide)
      rw [h]
      have h2 : (({lit ("^ab$"), lit ("^cd$")} : Finset Str) \
          cws_redundant (({lit ("^ab$"), lit ("^cd$")} : Finset Str) \
            complicated_of {lit ("^ab$"), lit ("^cd$")})) =
          {lit ("^ab$"), lit ("^cd$")} := by decide
      rw [h2])
    (lit ("^ab$")) (by simp) (lit ("^cd$")) (by simp) (by decide)

theorem lang_paren_a_or_a : langFull (lit ("(a)|(a)")) = {s : Str | s = ['a']} := by
  unfold langFull
  rw [show parseG (lit ("(a)|(a)")) =
    some (Reg.alt (Reg.seq (Reg.seq (Reg.lit 'a') Reg.eps) Reg.eps)
      (Reg.seq (Reg.seq (Reg.lit 'a') Reg.eps) Reg.eps)) from by decide]
  ext s
  simp

theorem lang_c5_nonelided :
    langFull (lit ("(a).*|(a)")) =
      {s : Str | (∃ t, s = 'a' :: t) ∨ s = ['a']} := by
  unfold langFull
  rw [show parseG (lit ("(a).*|(a)")) =
    some (Reg.alt
      (Reg.seq (Reg.seq (Reg.lit 'a') Reg.eps) (Reg.seq Reg.anyStar Reg.eps))
      (Reg.seq (Reg.seq (Reg.lit 'a') Reg.eps) Reg.eps)) from by decide]
  ext s
  simp only [Set.mem_setOf_eq, rmatch_alt_iff, rmatch_seq_iff, rmatch_lit_iff,
    rmatch_eps_iff, rmatch_anyStar_iff]
  constructor
  · rintro (⟨s1, s2, rfl, ⟨t1, t2, rfl, rfl, rfl⟩, ⟨u1, u2, rfl, _, rfl⟩⟩ |
      ⟨s1, s2, rfl, ⟨t1, t2, rfl, rfl, rfl⟩, rfl⟩)
    · exact Or.inl ⟨u1 ++ [], by simp⟩
    · exact Or.inr (by simp)
  · rintro (⟨t, rfl⟩ | rfl)
    · exact Or.inl ⟨['a'], t, rfl, ⟨['a'], [], by simp, rfl, rfl⟩,
        t, [], by simp, trivial, rfl⟩
    · exact Or.inr ⟨['a'], [], by simp, ⟨['a'], [], by simp, rfl, rfl⟩, rfl⟩

theorem equiv_filter_elided_c5 :
    equiv_filter_elided (lit ("^(a).*$")) (lit ("^(a)$")) := by
  unfold equiv_filter_elided
  rw [show clean_pattern (elide_wildcards (lit ("^(a).*$"))) ++
      '|' :: clean_pattern (elide_wildcards (lit ("^(a)$"))) =
    lit ("(a)|(a)") from by decide]
  rw [show clean_pattern (elide_wildcards (lit ("^(a)$"))) = lit ("(a)") from by
    decide]
  rw [lang_paren_a_or_a, lang_paren_a]

theorem not_equiv_filter_c5 :
    ¬ equiv_filter (lit ("^(a).*$")) (lit ("^(a)$")) := by
  unfold equiv_filter
  rw [show clean_pattern (lit ("^(a).*$")) ++ '|' :: clean_pattern (lit ("^(a)$")) =
    lit ("(a).*|(a)") from by decide]
  rw [show clean_pattern (lit ("^(a)$")) = lit ("(a)") from by decide]
  rw [lang_c5_nonelided, lang_paren_a]
  intro h
  have h1 : lit ("ab") ∈ {s : Str | (∃ t, s = 'a' :: t) ∨ s = ['a']} :=
    Or.inl ⟨['b'], rfl⟩
  rw [h] at h1
  exact absurd h1 (by decide)

/-- CLAIM C5, counterexample.  The exact equivalence filter is NOT run on
the `.*`-elided patterns: for `word = ^(a).*$` and `sub = ^(a)$` the
claimed (elided) check reports equivalence, but the filter actually
embedded in the code — greenery equivalence of
`clean_pattern word | clean_pattern sub` with `clean_pattern sub`, the
`.*` retained — rejects the pair. -/
theorem wildcard_elision_cex :
    equiv_filter_elided (lit ("^(a).*$")) (lit ("^(a)$")) ∧
    ¬ equiv_filter (lit ("^(a).*$")) (lit ("^(a)$")) :=
  ⟨equiv_filter_elided_c5, not_equiv_filter_c5⟩

/-- CLAIM C5, amended.  The `.*` elision is applied only when generating
sample strings (every admissible test string lives in the language of the
elided, cleaned pattern, and the sample tuple of `^(a).*$` is exactly
`["a"]` — finite only because of the elision), while the exact equivalence
check runs on `clean_pattern` of the raw patterns with `.*` retained:
accordingly the helper does not report `^(a).*$` redundant to `^(a)$`,
although the elided check would. -/
theorem wildcard_elision_amended :
    (∀ (word : Str) (ts : List Str), test_strings_ok word ts →
      ∀ t ∈ ts, t ∈ langFull (clean_pattern (elide_wildcards word))) ∧
    test_strings_ok (lit ("^(a).*$")) [lit ("a")] ∧
    ¬ check_words_complicated_helper_finds (lit ("^(a).*$"))
      {lit ("^(a).*$"), lit ("^(a)$")} := by
  refine ⟨?_, ?_, ?_⟩
  · intro word ts hts t ht
    exact hts.2.2.1 t ht
  · refine ⟨by simp, by simp, ?_, ?_⟩
    · intro t ht
      simp only [List.mem_singleton] at ht
      subst ht
      unfold sample_lang
      rw [show clean_pattern (elide_wildcards (lit ("^(a).*$"))) = lit ("(a)") from
        by decide, lang_paren_a]
      rfl
    · intro _ t ht
      unfold sample_lang at ht
      rw [show clean_pattern (elide_wildcards (lit ("^(a).*$"))) = lit ("(a)") from
        by decide, lang_paren_a] at ht
      simpa using ht
  · rintro ⟨ts, _, sub, hsub, hne, _, _, heq⟩
    rw [Finset.mem_insert, Finset.mem_singleton] at hsub
    rcases hsub with rfl | rfl
    · exact hne rfl
    · exact not_equiv_filter_c5 heq

/-- The literal characters of a regex: characters of `lit` atoms (the only
way a dot-free regex constrains string content). -/
def regChars : Reg → List Char
  | Reg.fail => []
  | Reg.eps => []
  | Reg.lit c => [c]
  | Reg.dot => []
  | Reg.anyStar => []
  | Reg.alt r1 r2 => regChars r1 ++ regChars r2
  | Reg.seq r1 r2 => regChars r1 ++ regChars r2

/-- Whether a regex avoids the any-character forms `.` and `.*`. -/
def dotFree : Reg → Bool
  | Reg.fail => true
  | Reg.eps => true
  | Reg.lit _ => true
  | Reg.dot => false
  | Reg.anyStar => false
  | Reg.alt r1 r2 => dotFree r1 && dotFree r2
  | Reg.seq r1 r2 => dotFree r1 && dotFree r2

theorem rmatch_chars {r : Reg} {s : Str} (hd : dotFree r = true)
    (hm : RMatch r s) : ∀ ch ∈ s, ch ∈ regChars r := by
  induction hm with
  | eps => simp
  | lit c => simp [regChars]
  | dot c => exact absurd hd (by simp [dotFree])
  | anyStar s => exact absurd hd (by simp [dotFree])
  | altL h ih =>
    simp only [dotFree, Bool.and_eq_true] at hd
    intro ch hch
    exact List.mem_append_left _ (ih hd.1 ch hch)
  | altR h ih =>
    simp only [dotFree, Bool.and_eq_true] at hd
    intro ch hch
    exact List.mem_append_right _ (ih hd.2 ch hch)
  | seq h1 h2 ih1 ih2 =>
    simp only [dotFree, Bool.and_eq_true] at hd
    intro ch hch
    rcases List.mem_append.mp hch with hch | hch
    · exact List.mem_append_left _ (ih1 hd.1 ch hch)
    · exact List.mem_append_right _ (ih2 hd.2 ch hch)

/-- CLAIM C4, counterexample.  An empty character overlap does not imply
non-containment: `^(a)$` and `^(.|b)$` share no literal character outside
the metacharacter set, yet the language of the first (just `a`) is
contained in the language of the second (all one-character strings, via the
`.` wildcard). -/
theorem char_overlap_cex :
    char_overlap (lit ("^(a)$")) (lit ("^(.|b)$")) = ∅ ∧
    lit ("^(a)$") ≠ lit ("^(.|b)$") ∧
    patternLang (lit ("^(a)$")) ⊆ patternLang (lit ("^(.|b)$")) :=
  ⟨by decide, by decide, c2_lang_subset⟩

/-- CLAIM C4, amended.  The character-overlap fast-reject is justified for
dot-free pairs: when both end-anchored patterns parse to regexes without
`.` or `.*`, whose literal characters occur in the pattern strings and miss
the metacharacter set, and `word` matches some nonempty string, an empty
overlap really does rule out language containment. -/
theorem char_overlap_amended (w c : Str) (rw1 rc : Reg)
    (hw : parseRe w = some (rw1, true)) (hc : parseRe c = some (rc, true))
    (hdw : dotFree rw1 = true) (hdc : dotFree rc = true)
    (hmw : ∀ ch ∈ regChars rw1, ch ∈ w ∧ ch ∉ meta_chars)
    (hmc : ∀ ch ∈ regChars rc, ch ∈ c ∧ ch ∉ meta_chars)
    (hne : ∃ s ∈ patternLang w, s ≠ [])
    (hov : char_overlap w c = ∅) :
    ¬ (patternLang w ⊆ patternLang c) := by
  intro hsub
  obtain ⟨s, hs, hsne⟩ := hne
  have hsc := hsub hs
  obtain ⟨ch, s2, rfl⟩ : ∃ ch s2, s = ch :: s2 := by
    cases s with
    | nil => exact absurd rfl hsne
    | cons x y => exact ⟨x, y, rfl⟩
  have hw1 : RMatch rw1 (ch :: s2) := by
    simpa only [patternLang, Set.mem_setOf_eq, reMatchP, hw, if_pos] using hs
  have hc1 : RMatch rc (ch :: s2) := by
    simpa only [patternLang, Set.mem_setOf_eq, reMatchP, hc, if_pos] using hsc
  have h1 := rmatch_chars hdw hw1 ch (by simp)
  have h2 := rmatch_chars hdc hc1 ch (by simp)
  have hov2 : ch ∈ char_overlap w c := by
    unfold char_overlap
    rw [Finset.mem_sdiff, Finset.mem_inter]
    exact ⟨⟨List.mem_toFinset.mpr (hmw ch h1).1, List.mem_toFinset.mpr (hmc ch h2).1⟩,
      fun hm => (hmw ch h1).2 (List.mem_toFinset.mp hm)⟩
  rw [hov] at hov2
  exact absurd hov2 (Finset.not_mem_empty ch)

/-- Witness for the amended C4: `^(ab)$` and `^(cd)$` share no literal
character, and indeed neither language contains the other. -/
theorem char_overlap_amended_witness :
    ¬ (patternLang (lit ("^(ab)$")) ⊆ patternLang (lit ("^(cd)$"))) :=
  char_overlap_amended (lit ("^(ab)$")) (lit ("^(cd)$"))
    (Reg.seq (Reg.seq (Reg.lit 'a') (Reg.seq (Reg.lit 'b') Reg.eps)) Reg.eps)
    (Reg.seq (Reg.seq (Reg.lit 'c') (Reg.seq (Reg.lit 'd') Reg.eps)) Reg.eps)
    (by decide) (by decide) (by decide) (by decide) (by decide) (by decide)
    ⟨lit ("ab"),
      (reMatchB_iff (p := lit ("^(ab)$")) (t := lit ("ab"))).mp (by decide),
      by decide⟩
    (by decide)

end Badword
